import Mathlib

/-!
Verification of the configuration mutation engine of oozie-memory.py.

The engine consists of two pure value transformers (increase_yarn_value and
increase_general_value) and a document mutator (process_xml) that walks an
XML property-list document. This file gives a shallow embedding of those
functions over explicit character lists and an XML element-tree datatype,
and proves the specification claims about them.

Modelling conventions:
* Python strings are Lean String values; the character-level work happens on
  the underlying List Char. Only ASCII data is modelled: the Python builtins
  str.isdigit, str.strip and int accept some non-ASCII characters that never
  occur in the configuration documents this program manipulates.
* Python int values are Lean Int; str of an int is intToDecimal; int applied
  to a string is pyInt, which returns none where Python raises ValueError.
* Python exceptions are modelled with Except PyErr.
-/

/-- Decidable test for an ASCII decimal digit, the characters accepted by the
digit-only branches of the transformers. -/
def isAsciiDigit (c : Char) : Bool := '0' ≤ c && c ≤ '9'

/-- Numeric value of an ASCII digit character. -/
def digitVal (c : Char) : Nat := c.toNat - 48

/-- Decimal digit character for a value below ten. -/
def digitChar : Nat → Char
  | 0 => '0' | 1 => '1' | 2 => '2' | 3 => '3' | 4 => '4'
  | 5 => '5' | 6 => '6' | 7 => '7' | 8 => '8' | _ => '9'

/-- Whitespace characters removed by the Python str.strip method and ignored
by the Python int builtin (ASCII fragment). -/
def pyWs (c : Char) : Bool :=
  c = ' ' || c = '\t' || c = '\n' || c = '\r' || c = '\x0b' || c = '\x0c'

/-- Strip leading and trailing whitespace from a character list, as the
Python str.strip method does. -/
def stripWs (l : List Char) : List Char :=
  ((l.dropWhile pyWs).reverse.dropWhile pyWs).reverse

/-- Value of a list of decimal digit characters, most significant first. -/
def listToNat (l : List Char) : Nat :=
  l.foldl (fun a c => a * 10 + digitVal c) 0

/-- Fuelled digit emitter for decimal notation; the accumulator collects the
digits already produced, least significant first in recursion order. -/
def natToDigitsAux : Nat → Nat → List Char → List Char
  | 0, _, acc => acc
  | f + 1, n, acc =>
    if n < 10 then digitChar n :: acc
    else natToDigitsAux f (n / 10) (digitChar (n % 10) :: acc)

/-- Decimal digit list of a natural number, as Python str renders it. -/
def natToDigits (n : Nat) : List Char := natToDigitsAux (n + 1) n []

/-- Models Python str applied to an int: plain decimal digits, with a leading
minus sign for negative values. -/
def intToDecimal (i : Int) : String :=
  if i < 0 then ⟨'-' :: natToDigits i.natAbs⟩ else ⟨natToDigits i.toNat⟩

mutual
/-- Digit-run scanner used by pyInt after sign handling: accepts decimal
digits with single underscores allowed between digits, as Python int does. -/
def pyDigitsAux : List Char → Nat → Option Nat
  | [], acc => some acc
  | c :: rest, acc =>
    if isAsciiDigit c then pyDigitsAux rest (acc * 10 + digitVal c)
    else if c = '_' then pyDigitsUnd rest acc
    else none
/-- A single underscore was just consumed: the next character must be a
digit, and a trailing or doubled underscore is rejected. -/
def pyDigitsUnd : List Char → Nat → Option Nat
  | c2 :: rest2, acc =>
    if isAsciiDigit c2 then pyDigitsAux rest2 (acc * 10 + digitVal c2) else none
  | [], _ => none
end

/-- Unsigned digit parser: fails on the empty list, on a leading underscore
and on any character that is not a digit or a well-placed underscore. -/
def pyDigits : List Char → Option Nat
  | [] => none
  | c :: rest => if isAsciiDigit c then pyDigitsAux rest (digitVal c) else none

/-- Sign handling of the Python int builtin, after whitespace stripping. -/
def pyIntCore : List Char → Option Int
  | [] => none
  | c :: rest =>
    if c = '+' then (pyDigits rest).map Int.ofNat
    else if c = '-' then (pyDigits rest).map (fun n => -(n : Int))
    else (pyDigits (c :: rest)).map Int.ofNat

/-- Models the Python int builtin on a string: optional surrounding
whitespace, an optional single sign, then a nonempty digit run. Returns none
exactly where Python raises ValueError. -/
def pyInt (s : String) : Option Int := pyIntCore (stripWs s.data)

/-- Models the Python str.isdigit method on ASCII data: nonempty and composed
entirely of decimal digits. -/
def pyIsDigit (s : String) : Bool :=
  !s.data.isEmpty && s.data.all isAsciiDigit

/-- Models the Python str.startswith method. -/
def pyStartsWith (s pre : String) : Bool := pre.data.isPrefixOf s.data

/-- Models the Python str.endswith method. -/
def pyEndsWith (s suf : String) : Bool := suf.data.isSuffixOf s.data

/-- Substring membership on character lists, as the Python in operator tests
on strings. -/
def listContainsSub (needle : List Char) : List Char → Bool
  | [] => needle.isEmpty
  | c :: rest => needle.isPrefixOf (c :: rest) || listContainsSub needle rest

/-- Models the Python in operator on strings: sub occurs contiguously in s. -/
def pyContains (s sub : String) : Bool := listContainsSub sub.data s.data

/-- Models the Python str.strip method. -/
def pyStrip (s : String) : String := ⟨stripWs s.data⟩

/-- Python exceptions that the engine can raise: ValueError from the int
builtin, AttributeError from calling strip on a missing text. -/
inductive PyErr : Type where
  | valueError
  | attributeError
deriving DecidableEq, Repr

/-- Decidable equality for modelled Python results, used both by the no-op
predicates and by concrete evaluations in the theorems below. -/
instance instDecEqExcept {e a : Type} [DecidableEq e] [DecidableEq a] :
    DecidableEq (Except e a) := fun x y =>
  match x, y with
  | .error e1, .error e2 =>
    match decEq e1 e2 with
    | isTrue h => isTrue (congrArg Except.error h)
    | isFalse h => isFalse fun hc => h (Except.error.inj hc)
  | .ok x1, .ok y1 =>
    match decEq x1 y1 with
    | isTrue h => isTrue (congrArg Except.ok h)
    | isFalse h => isFalse fun hc => h (Except.ok.inj hc)
  | .error _, .ok _ => isFalse fun hc => Except.noConfusion hc
  | .ok _, .error _ => isFalse fun hc => Except.noConfusion hc

/-- Embedding of increase_yarn_value from oozie-memory.py. A value passing
the startswith and endswith checks has the slice value[4:-1] fed to int,
which raises ValueError when that interior is not an integer literal;
otherwise a digit-only value is incremented, and anything else is returned
unchanged. -/
def increase_yarn_value (value : String) (delta_mb : Int) : Except PyErr String :=
  if pyStartsWith value "-Xmx" && pyEndsWith value "M" then
    match pyInt ⟨(value.data.drop 4).dropLast⟩ with
    | some num => .ok ("-Xmx" ++ intToDecimal (num + delta_mb) ++ "M")
    | none => .error .valueError
  else if pyIsDigit value then
    .ok (intToDecimal ((listToNat value.data : Int) + delta_mb))
  else
    .ok value

/-- Start-anchored match of the regular expression -Xmx, a nonempty greedy
digit run, then one of the characters m or M, as re.match uses it in
increase_general_value. Returns the digit-run value and the suffix letter;
characters after the suffix letter are not constrained. -/
def xmxPrefixMatch (l : List Char) : Option (Nat × Char) :=
  if ['-', 'X', 'm', 'x'].isPrefixOf l then
    match (l.drop 4).dropWhile isAsciiDigit with
    | c :: _ =>
      if !((l.drop 4).takeWhile isAsciiDigit).isEmpty && (c == 'm' || c == 'M') then
        some (listToNat ((l.drop 4).takeWhile isAsciiDigit), c)
      else none
    | [] => none
  else none

/-- Embedding of increase_general_value from oozie-memory.py. The is_java_opt
parameter is accepted but never consulted, exactly as in the source. -/
def increase_general_value (value : String) (delta_mb : Int)
    (is_java_opt : Bool) (is_reduce_memory : Bool) : String :=
  if pyStartsWith value "$\x7b" then
    if is_reduce_memory then "-Xmx" ++ intToDecimal (delta_mb - 512) ++ "M"
    else intToDecimal delta_mb
  else if pyIsDigit value then
    intToDecimal ((listToNat value.data : Int) + delta_mb)
  else
    match xmxPrefixMatch value.data with
    | some (n, c) => "-Xmx" ++ intToDecimal ((n : Int) + delta_mb) ++ String.singleton c
    | none => value

/-- Exact-match eligibility test of the YarnOnly mode, from the yarn branch
of process_xml. -/
def yarnEligible (name : String) : Bool :=
  name == "yarn.app.mapreduce.am.command-opts" ||
  name == "yarn.app.mapreduce.am.resource.mb"

/-- Substring eligibility test of the GeneralMapReduce mode, from the any
expression in process_xml. -/
def mrEligible (name : String) : Bool :=
  pyContains name "mapreduce.map.memory.mb" ||
  pyContains name "mapreduce.map.java.opts" ||
  pyContains name "mapreduce.reduce.memory.mb" ||
  pyContains name "mapreduce.reduce.java.opts"

/-- Name eligibility for the active mode: true selects the YarnOnly branch
of process_xml, false the GeneralMapReduce branch. -/
def eligibleName (yarn_only : Bool) (name : String) : Bool :=
  if yarn_only then yarnEligible name else mrEligible name

/-- The general-mode replacement value exactly as process_xml computes it:
is_java_opt is substring containment of java.opts in the property name, and
is_reduce_memory is exact equality with mapreduce.reduce.memory.mb. -/
def generalNewValue (name value : String) (delta_mb : Int) : String :=
  increase_general_value value delta_mb (pyContains name "java.opts")
    (name == "mapreduce.reduce.memory.mb")

/-- Replacement value computed by process_xml for one property, or none when
the property name is not eligible for the active mode. The yarn transformer
can raise, hence the Except layer. -/
def newValueFor (yarn_only : Bool) (delta_mb : Int) (name value : String) :
    Option (Except PyErr String) :=
  if yarn_only then
    if yarnEligible name then some (increase_yarn_value value delta_mb) else none
  else
    if mrEligible name then some (.ok (generalNewValue name value delta_mb)) else none

/-- Element node of an ElementTree document: qualified tag, attributes, the
text before the first child (none when absent) and the child elements. -/
inductive XmlNode : Type where
  | elem (tag : String) (attrs : List (String × String)) (text : Option String)
      (children : List XmlNode)

/-- Qualified tag of an element. -/
def XmlNode.tag : XmlNode → String
  | .elem t _ _ _ => t

/-- Attribute list of an element. -/
def XmlNode.attrs : XmlNode → List (String × String)
  | .elem _ a _ _ => a

/-- Text of an element, none when the element has no text. -/
def XmlNode.text : XmlNode → Option String
  | .elem _ _ tx _ => tx

/-- Child elements of an element. -/
def XmlNode.children : XmlNode → List XmlNode
  | .elem _ _ _ cs => cs

/-- Models Element.find with a plain tag: the first direct child carrying
that qualified tag. -/
def findTag (t : String) (l : List XmlNode) : Option XmlNode :=
  l.find? (fun n => n.tag == t)

/-- In-place assignment value_elem.text = new_value: rewrite the text of the
first child whose tag is t, leaving everything else untouched. -/
def setFirstValueText (t : String) (nv : String) : List XmlNode → List XmlNode
  | [] => []
  | .elem tg a tx cs :: rest =>
    if tg == t then .elem tg a (some nv) cs :: rest
    else .elem tg a tx cs :: setFirstValueText t nv rest

/-- Apply the pending text update of one property step, when there is one. -/
def applyUpd (vt : String) (u : Option String) (l : List XmlNode) : List XmlNode :=
  match u with
  | none => l
  | some nv => setFirstValueText vt nv l

/-- Opening brace character, written by code point to keep braces out of
string literals. -/
def lbrace : Char := Char.ofNat 123

/-- Closing brace character. -/
def rbrace : Char := Char.ofNat 125

/-- Namespace detection of process_xml: re.match of a brace, a greedy run of
arbitrary characters, then a brace, against the root tag; the namespace is
the matched text, or empty when there is no match. Greediness means the
match extends to the last closing brace of the tag. -/
def detectNs (tag : String) : String :=
  match tag.data with
  | c :: rest =>
    if c = lbrace then
      let kept := (rest.reverse.dropWhile (fun x => !(x == rbrace))).reverse
      if kept.isEmpty then "" else ⟨lbrace :: kept⟩
    else ""
  | [] => ""

/-- Core of one property step once both texts have been read: strip them,
compute the replacement value for an eligible name, and report some
replacement together with count 1 when the replacement differs from the
stripped value. -/
def stepFromTexts (yarn_only : Bool) (delta_mb : Int) (ntext vtext : String) :
    Except PyErr (Option String × Nat) :=
  match newValueFor yarn_only delta_mb (pyStrip ntext) (pyStrip vtext) with
  | none => .ok (none, 0)
  | some (.error e) => .error e
  | some (.ok nv) => if nv = pyStrip vtext then .ok (none, 0) else .ok (some nv, 1)

/-- One property step given its name and value elements: read both texts;
an absent text raises AttributeError, exactly as calling strip on None
does. -/
def stepFromElems (yarn_only : Bool) (delta_mb : Int) (ne ve : XmlNode) :
    Except PyErr (Option String × Nat) :=
  match ne.text, ve.text with
  | some ntext, some vtext => stepFromTexts yarn_only delta_mb ntext vtext
  | _, _ => .error .attributeError

/-- One property step of process_xml, operating on the children of a
property element: look up the name and value children and process their
texts. Missing name or value children mean a silent skip. -/
def stepCompute (ns : String) (delta_mb : Int) (yarn_only : Bool)
    (children : List XmlNode) : Except PyErr (Option String × Nat) :=
  match findTag (ns ++ "name") children, findTag (ns ++ "value") children with
  | some ne, some ve => stepFromElems yarn_only delta_mb ne ve
  | _, _ => .ok (none, 0)

mutual
/-- Walk of process_xml over one element. root.iter visits every descendant
with the property tag in document order; each visited property reads and
writes only the texts of its own first name and value children, and no two
visited properties share those children, so the in-place mutation order is
immaterial and the walk is modelled recursively: the step of the current
element runs first (preserving the exception order of the preorder
traversal), the subtree results are computed, and the pending text update
of the step is then applied. -/
def processNode (ns : String) (delta_mb : Int) (yarn_only : Bool) :
    XmlNode → Except PyErr (XmlNode × Nat)
  | .elem tag attrs tx children =>
    match (if tag == ns ++ "property" then stepCompute ns delta_mb yarn_only children
           else Except.ok (none, 0)) with
    | .error e => .error e
    | .ok (u, c1) =>
      match processForest ns delta_mb yarn_only children with
      | .error e => .error e
      | .ok (cs2, c2) =>
        .ok (.elem tag attrs tx (applyUpd (ns ++ "value") u cs2), c1 + c2)
/-- Walk of process_xml over a forest of elements, in document order. -/
def processForest (ns : String) (delta_mb : Int) (yarn_only : Bool) :
    List XmlNode → Except PyErr (List XmlNode × Nat)
  | [] => .ok ([], 0)
  | n :: rest =>
    match processNode ns delta_mb yarn_only n with
    | .error e => .error e
    | .ok (n2, c1) =>
      match processForest ns delta_mb yarn_only rest with
      | .error e => .error e
      | .ok (rest2, c2) => .ok (n2 :: rest2, c1 + c2)
end

/-- Embedding of process_xml: detect the namespace from the root tag, walk
the document, and return the mutated document, the modification count, and
the serialization decision tree.write runs under, namely a strictly
positive count. Exceptions abort the whole call before anything is
serialized. -/
def process_xml (root : XmlNode) (delta_mb : Int) (yarn_only : Bool) :
    Except PyErr (XmlNode × Nat × Bool) :=
  match processNode (detectNs root.tag) delta_mb yarn_only root with
  | .error e => .error e
  | .ok (r, c) => .ok (r, c, decide (0 < c))

mutual
/-- Number of positions at which the texts of two structurally parallel
elements differ: the specification-side count of actually changed values. -/
def diffN : XmlNode → XmlNode → Nat
  | .elem _ _ t1 c1, .elem _ _ t2 c2 => (if t1 = t2 then 0 else 1) + diffF c1 c2
/-- Number of differing text positions across two parallel forests. -/
def diffF : List XmlNode → List XmlNode → Nat
  | a :: l1, b :: l2 => diffN a b + diffF l1 l2
  | _, _ => 0
end

/-- Write-slot eligibility of one property element, read off its children:
both a name and a value child are present and the stripped name text is
eligible for the active mode. Exactly these slots can be overwritten by the
walk. -/
def eligHere (ns : String) (yarn_only : Bool) (cs : List XmlNode) : Bool :=
  match findTag (ns ++ "name") cs, findTag (ns ++ "value") cs with
  | some ne, some _ =>
    match ne.text with
    | some t => eligibleName yarn_only (pyStrip t)
    | none => false
  | _, _ => false

/-- Erase the text of the first child tagged t; used to mask the one slot a
property step may overwrite. -/
def zapFirstValue (t : String) : List XmlNode → List XmlNode
  | [] => []
  | .elem tg a tx cs :: rest =>
    if tg == t then .elem tg a none cs :: rest
    else .elem tg a tx cs :: zapFirstValue t rest

mutual
/-- Mask of an element for the frame property: the value slot of every
eligible property is erased, and everything else is kept verbatim. Two
documents with equal masks agree everywhere outside the eligible value
slots. -/
def maskN (ns : String) (yarn_only : Bool) : XmlNode → XmlNode
  | .elem tag attrs tx children =>
    .elem tag attrs tx
      (if tag == ns ++ "property" && eligHere ns yarn_only children then
        zapFirstValue (ns ++ "value") (maskF ns yarn_only children)
      else maskF ns yarn_only children)
/-- Mask of a forest for the frame property. -/
def maskF (ns : String) (yarn_only : Bool) : List XmlNode → List XmlNode
  | [] => []
  | n :: rest => maskN ns yarn_only n :: maskF ns yarn_only rest
end

mutual
/-- Check a predicate on the children of every element carrying the property
tag, over a whole element. -/
def allPropsN (ns : String) (p : List XmlNode → Bool) : XmlNode → Bool
  | .elem tag _ _ children =>
    (if tag == ns ++ "property" then p children else true) && allPropsF ns p children
/-- Check a predicate on the children of every property element of a forest. -/
def allPropsF (ns : String) (p : List XmlNode → Bool) : List XmlNode → Bool
  | [] => true
  | n :: rest => allPropsN ns p n && allPropsF ns p rest
end

/-- Name-based eligibility of one property element, the sense in which the
specification counts eligible properties: a name child is present with text
whose stripped form is eligible for the active mode. -/
def nameEligHere (ns : String) (yarn_only : Bool) (cs : List XmlNode) : Bool :=
  match findTag (ns ++ "name") cs with
  | some ne =>
    match ne.text with
    | some t => eligibleName yarn_only (pyStrip t)
    | none => false
  | none => false

/-- One property element is text-wellformed when, if both its name and value
children are present, both carry text; the walk raises AttributeError
exactly at a property violating this. -/
def textsHere (ns : String) (cs : List XmlNode) : Bool :=
  match findTag (ns ++ "name") cs, findTag (ns ++ "value") cs with
  | some ne, some ve => ne.text.isSome && ve.text.isSome
  | _, _ => true

/-- The document has zero eligible properties for the active mode. -/
def noEligibleDoc (ns : String) (yarn_only : Bool) : XmlNode → Bool :=
  allPropsN ns (fun cs => !nameEligHere ns yarn_only cs)

/-- Every property of the document is text-wellformed. -/
def textsOK (ns : String) : XmlNode → Bool :=
  allPropsN ns (textsHere ns)

/-- Every property step of the document is a silent no-op: skipped, or
ineligible, or computing a replacement equal to the current value. -/
def stepsNoOp (ns : String) (delta_mb : Int) (yarn_only : Bool) : XmlNode → Bool :=
  allPropsN ns (fun cs => decide (stepCompute ns delta_mb yarn_only cs = Except.ok (none, 0)))

/-- Top-level agreement of two elements: same tag, attributes and text. -/
def nodeTop (a b : XmlNode) : Prop :=
  a.tag = b.tag ∧ a.attrs = b.attrs ∧ a.text = b.text

/-- Every character emitted by digitChar is an ASCII digit. -/
theorem isAsciiDigit_digitChar (d : Nat) : isAsciiDigit (digitChar d) = true := by
  rcases d with _|_|_|_|_|_|_|_|_|d <;> rfl

/-- digitChar inverts digitVal below ten. -/
theorem digitVal_digitChar {d : Nat} (h : d < 10) : digitVal (digitChar d) = d := by
  interval_cases d <;> rfl

/-- The accumulator of natToDigitsAux is a suffix of the output. -/
theorem natToDigitsAux_append (f : Nat) : ∀ (n : Nat) (acc : List Char),
    natToDigitsAux f n acc = natToDigitsAux f n [] ++ acc := by
  induction f with
  | zero => intro n acc; rfl
  | succ f ih =>
    intro n acc
    by_cases h : n < 10
    · simp [natToDigitsAux, h]
    · rw [natToDigitsAux, natToDigitsAux, if_neg h, if_neg h, ih (n / 10),
        ih (n / 10) [digitChar (n % 10)], List.append_assoc]
      rfl

/-- Decimal notation of a natural number is never empty. -/
theorem natToDigits_ne_nil (n : Nat) : natToDigits n ≠ [] := by
  unfold natToDigits natToDigitsAux
  by_cases h : n < 10
  · simp [h]
  · rw [if_neg h, natToDigitsAux_append]
    simp

/-- Decimal notation of a natural number consists of ASCII digits. -/
theorem natToDigits_all_digit (n : Nat) : ∀ c ∈ natToDigits n, isAsciiDigit c = true := by
  unfold natToDigits
  generalize hf : n + 1 = f
  clear hf
  induction f generalizing n with
  | zero => simp [natToDigitsAux]
  | succ f ih =>
    rw [natToDigitsAux]
    by_cases h : n < 10
    · simp [h, isAsciiDigit_digitChar]
    · rw [if_neg h, natToDigitsAux_append]
      intro c hc
      rcases List.mem_append.mp hc with hc | hc
      · exact ih (n / 10) c hc
      · simp at hc
        rw [hc]
        exact isAsciiDigit_digitChar _

/-- Folding one further digit multiplies the accumulated value by ten. -/
theorem listToNat_concat (l : List Char) (c : Char) :
    listToNat (l ++ [c]) = listToNat l * 10 + digitVal c := by
  unfold listToNat
  rw [List.foldl_append]
  rfl

/-- The digit emitter is correct whenever it has enough fuel. -/
theorem listToNat_natToDigitsAux (f : Nat) : ∀ n : Nat, n < f →
    listToNat (natToDigitsAux f n []) = n := by
  induction f with
  | zero => intro n h; omega
  | succ f ih =>
    intro n h
    rw [natToDigitsAux]
    by_cases h10 : n < 10
    · rw [if_pos h10]
      show listToNat ([] ++ [digitChar n]) = n
      rw [listToNat_concat]
      simp [listToNat, digitVal_digitChar h10]
    · rw [if_neg h10, natToDigitsAux_append, listToNat_concat]
      have hdiv : n / 10 < n := Nat.div_lt_self (by omega) (by omega)
      rw [ih (n / 10) (by omega), digitVal_digitChar (Nat.mod_lt _ (by omega))]
      omega

/-- Round trip: reading back the decimal notation returns the number. -/
theorem listToNat_natToDigits (n : Nat) : listToNat (natToDigits n) = n :=
  listToNat_natToDigitsAux (n + 1) n (Nat.lt_succ_self n)

/-- Decimal notation is injective. -/
theorem natToDigits_inj {a b : Nat} (h : natToDigits a = natToDigits b) : a = b := by
  have := listToNat_natToDigits a
  rw [h, listToNat_natToDigits] at this
  omega

/-- A character distinct from every whitespace character is kept by pyWs. -/
theorem not_ws_of_digit {c : Char} (h : isAsciiDigit c = true) : pyWs c = false := by
  have hne : ∀ x : Char, isAsciiDigit x = false → ¬(c = x) := by
    intro x hx hc
    rw [hc, hx] at h
    exact Bool.false_ne_true h
  unfold pyWs
  rw [decide_eq_false (hne ' ' (by rfl)), decide_eq_false (hne '\t' (by rfl)),
    decide_eq_false (hne '\n' (by rfl)), decide_eq_false (hne '\r' (by rfl)),
    decide_eq_false (hne '\x0b' (by rfl)), decide_eq_false (hne '\x0c' (by rfl))]
  rfl

/-- dropWhile is the identity when no element satisfies the predicate. -/
theorem dropWhile_all_false {p : Char → Bool} : ∀ {l : List Char},
    (∀ c ∈ l, p c = false) → l.dropWhile p = l := by
  intro l
  induction l with
  | nil => intro _; rfl
  | cons a t ih =>
    intro h
    rw [List.dropWhile_cons, h a (by simp), if_neg (by simp)]

/-- Stripping is the identity on a list without whitespace characters. -/
theorem stripWs_no_ws {l : List Char} (h : ∀ c ∈ l, pyWs c = false) : stripWs l = l := by
  unfold stripWs
  rw [dropWhile_all_false h, dropWhile_all_false (by
    intro c hc
    exact h c (List.mem_reverse.mp hc)), List.reverse_reverse]

/-- On a nonnegative argument intToDecimal is the plain digit string. -/
theorem intToDecimal_nonneg {i : Int} (h : 0 ≤ i) :
    intToDecimal i = ⟨natToDigits i.toNat⟩ := by
  unfold intToDecimal
  rw [if_neg (by omega)]

/-- Every character of a rendered integer is a digit or a leading minus. -/
theorem intToDecimal_no_ws (i : Int) : ∀ c ∈ (intToDecimal i).data, pyWs c = false := by
  unfold intToDecimal
  by_cases h : i < 0
  · rw [if_pos h]
    intro c hc
    rcases List.mem_cons.mp hc with hc | hc
    · rw [hc]; rfl
    · exact not_ws_of_digit (natToDigits_all_digit _ c hc)
  · rw [if_neg h]
    intro c hc
    exact not_ws_of_digit (natToDigits_all_digit _ c hc)

/-- Rendering is injective on nonnegative integers. -/
theorem intToDecimal_inj_nonneg {i j : Int} (hi : 0 ≤ i) (hj : 0 ≤ j)
    (h : intToDecimal i = intToDecimal j) : i = j := by
  rw [intToDecimal_nonneg hi, intToDecimal_nonneg hj] at h
  have hd : natToDigits i.toNat = natToDigits j.toNat := congrArg String.data h
  have := natToDigits_inj hd
  omega

/-- A digit is not any fixed non-digit character. -/
theorem digit_ne {c x : Char} (h : isAsciiDigit c = true) (hx : isAsciiDigit x = false) :
    ¬(c = x) := by
  intro hc
  rw [hc, hx] at h
  exact Bool.false_ne_true h

/-- On an all-digit list the digit scanner folds the digits into the
accumulator. -/
theorem pyDigitsAux_all_digit : ∀ {l : List Char} (a : Nat),
    (∀ c ∈ l, isAsciiDigit c = true) →
    pyDigitsAux l a = some (l.foldl (fun x c => x * 10 + digitVal c) a) := by
  intro l
  induction l with
  | nil => intro a _; rfl
  | cons c rest ih =>
    intro a h
    rw [pyDigitsAux, if_pos (h c (by simp))]
    rw [ih _ (by intro x hx; exact h x (by simp [hx]))]
    rfl

/-- On a nonempty all-digit list the unsigned parser returns the value. -/
theorem pyDigits_all_digit {l : List Char} (h1 : l ≠ [])
    (h2 : ∀ c ∈ l, isAsciiDigit c = true) : pyDigits l = some (listToNat l) := by
  match l with
  | [] => exact absurd rfl h1
  | c :: rest =>
    rw [pyDigits, if_pos (h2 c (by simp))]
    rw [pyDigitsAux_all_digit _ (by intro x hx; exact h2 x (by simp [hx]))]
    unfold listToNat
    rw [List.foldl_cons]
    norm_num

/-- Python int of a nonempty all-digit string is its decimal value. -/
theorem pyInt_all_digit {l : List Char} (h1 : l ≠ [])
    (h2 : ∀ c ∈ l, isAsciiDigit c = true) :
    pyInt ⟨l⟩ = some (Int.ofNat (listToNat l)) := by
  have hstr : stripWs l = l :=
    stripWs_no_ws (by intro c hc; exact not_ws_of_digit (h2 c hc))
  unfold pyInt
  show pyIntCore (stripWs l) = some (Int.ofNat (listToNat l))
  rw [hstr]
  match l, h1 with
  | c :: rest, _ =>
    have hc := h2 c (by simp)
    rw [pyIntCore, if_neg (digit_ne hc (by rfl)), if_neg (digit_ne hc (by rfl)),
      pyDigits_all_digit (by simp) h2]
    rfl

/-- takeWhile over an all-true block followed by a failing element. -/
theorem takeWhile_block {p : Char → Bool} {c : Char} (hc : p c = false) :
    ∀ {ds t : List Char}, (∀ x ∈ ds, p x = true) →
    (ds ++ c :: t).takeWhile p = ds := by
  intro ds
  induction ds with
  | nil => intro t _; simp [List.takeWhile_cons, hc]
  | cons a ds2 ih =>
    intro t h
    rw [List.cons_append, List.takeWhile_cons, h a (by simp), if_pos rfl, ih (by
      intro x hx; exact h x (by simp [hx]))]

/-- dropWhile over an all-true block followed by a failing element. -/
theorem dropWhile_block {p : Char → Bool} {c : Char} (hc : p c = false) :
    ∀ {ds t : List Char}, (∀ x ∈ ds, p x = true) →
    (ds ++ c :: t).dropWhile p = c :: t := by
  intro ds
  induction ds with
  | nil => intro t _; simp [List.dropWhile_cons, hc]
  | cons a ds2 ih =>
    intro t h
    rw [List.cons_append, List.dropWhile_cons, h a (by simp), if_pos rfl, ih (by
      intro x hx; exact h x (by simp [hx]))]

/-- Closed evaluation of the yarn transformer on a value of the recognized
form -Xmx digits M. -/
theorem increase_yarn_value_xmx {s : List Char} (d : Int) (h1 : s ≠ [])
    (h2 : ∀ c ∈ s, isAsciiDigit c = true) :
    increase_yarn_value ⟨'-' :: 'X' :: 'm' :: 'x' :: (s ++ ['M'])⟩ d =
      .ok ("-Xmx" ++ intToDecimal ((listToNat s : Int) + d) ++ "M") := by
  have hpre : pyStartsWith ⟨'-' :: 'X' :: 'm' :: 'x' :: (s ++ ['M'])⟩ "-Xmx" = true := by
    simp [pyStartsWith, List.isPrefixOf]
  have hsuf : pyEndsWith ⟨'-' :: 'X' :: 'm' :: 'x' :: (s ++ ['M'])⟩ "M" = true := by
    simp [pyEndsWith, List.isSuffixOf, List.isPrefixOf]
  unfold increase_yarn_value
  rw [hpre, hsuf]
  show (match pyInt ⟨((('-' :: 'X' :: 'm' :: 'x' :: (s ++ ['M'])).drop 4)).dropLast⟩ with
    | some num => Except.ok ("-Xmx" ++ intToDecimal (num + d) ++ "M")
    | none => Except.error PyErr.valueError) = _
  have hdrop : ('-' :: 'X' :: 'm' :: 'x' :: (s ++ ['M'])).drop 4 = s ++ ['M'] := rfl
  rw [hdrop, List.dropLast_concat, pyInt_all_digit h1 h2]
  rfl

/-- A digit head refutes a beq test against a fixed non-digit character. -/
theorem beq_digit_false {x c : Char} (hc : isAsciiDigit c = true)
    (hx : isAsciiDigit x = false) : (x == c) = false :=
  beq_eq_false_iff_ne.mpr fun h => digit_ne hc hx h.symm

/-- A nonempty all-digit list passes pyIsDigit. -/
theorem pyIsDigit_of_digits {l : List Char} (h1 : l ≠ [])
    (h2 : ∀ c ∈ l, isAsciiDigit c = true) : pyIsDigit ⟨l⟩ = true := by
  match l, h1 with
  | c :: rest, _ =>
    simp only [pyIsDigit, List.isEmpty_cons, Bool.not_false, Bool.true_and]
    exact List.all_eq_true.mpr fun x hx => h2 x hx

/-- Closed evaluation of the yarn transformer on a digit-only value. -/
theorem increase_yarn_value_digits {l : List Char} (d : Int) (h1 : l ≠ [])
    (h2 : ∀ c ∈ l, isAsciiDigit c = true) :
    increase_yarn_value ⟨l⟩ d = .ok (intToDecimal ((listToNat l : Int) + d)) := by
  match l, h1 with
  | c :: rest, _ =>
    have hc := h2 c (by simp)
    have hpre : pyStartsWith ⟨c :: rest⟩ "-Xmx" = false := by
      show (['-', 'X', 'm', 'x'].isPrefixOf (c :: rest)) = false
      simp [List.isPrefixOf, beq_digit_false hc (by rfl : isAsciiDigit '-' = false)]
    have hdig := pyIsDigit_of_digits (l := c :: rest) (by simp) h2
    simp only [increase_yarn_value, hpre, hdig, Bool.false_and, Bool.false_eq_true,
      if_false, if_true]

/-- The yarn transformer is the identity on every value failing the prefix
and suffix test and the digit test. -/
theorem increase_yarn_value_fallback (v : String) (d : Int)
    (h1 : pyStartsWith v "-Xmx" = false ∨ pyEndsWith v "M" = false)
    (h2 : pyIsDigit v = false) :
    increase_yarn_value v d = .ok v := by
  have hand : (pyStartsWith v "-Xmx" && pyEndsWith v "M") = false := by
    rcases h1 with h1 | h1 <;> simp [h1]
  simp only [increase_yarn_value, hand, h2, Bool.false_eq_true, if_false]

/-- On a placeholder value the general transformer ignores the value body
and answers from the delta and the reduce-memory flag alone. -/
theorem increase_general_value_placeholder (v : String) (d : Int) (j r : Bool)
    (h : pyStartsWith v "$\x7b" = true) :
    increase_general_value v d j r =
      if r then "-Xmx" ++ intToDecimal (d - 512) ++ "M" else intToDecimal d := by
  simp only [increase_general_value, h, if_true]

/-- Closed evaluation of the general transformer on a digit-only value. -/
theorem increase_general_value_digits {l : List Char} (d : Int) (j r : Bool)
    (h1 : l ≠ []) (h2 : ∀ c ∈ l, isAsciiDigit c = true) :
    increase_general_value ⟨l⟩ d j r = intToDecimal ((listToNat l : Int) + d) := by
  match l, h1 with
  | c :: rest, _ =>
    have hc := h2 c (by simp)
    have hpre : pyStartsWith ⟨c :: rest⟩ "$\x7b" = false := by
      show (['$', lbrace].isPrefixOf (c :: rest)) = false
      simp [List.isPrefixOf, beq_digit_false hc (by rfl : isAsciiDigit '$' = false)]
    have hdig := pyIsDigit_of_digits (l := c :: rest) (by simp) h2
    simp only [increase_general_value, hpre, hdig, Bool.false_eq_true, if_false, if_true]

/-- Closed evaluation of the general transformer on a value matching the
start-anchored -Xmx pattern, with an arbitrary (discarded) trailer. -/
theorem increase_general_value_xmx {s : List Char} (c : Char) (t : List Char)
    (d : Int) (j r : Bool) (h1 : s ≠ []) (h2 : ∀ x ∈ s, isAsciiDigit x = true)
    (hc : c = 'm' ∨ c = 'M') :
    increase_general_value ⟨'-' :: 'X' :: 'm' :: 'x' :: (s ++ c :: t)⟩ d j r =
      "-Xmx" ++ intToDecimal ((listToNat s : Int) + d) ++ String.singleton c := by
  have hcdig : isAsciiDigit c = false := by rcases hc with hc | hc <;> rw [hc] <;> rfl
  have hpre : pyStartsWith ⟨'-' :: 'X' :: 'm' :: 'x' :: (s ++ c :: t)⟩ "$\x7b" = false := by
    rfl
  have hdig : pyIsDigit ⟨'-' :: 'X' :: 'm' :: 'x' :: (s ++ c :: t)⟩ = false := by
    simp only [pyIsDigit, List.all_cons, show isAsciiDigit '-' = false from rfl,
      Bool.false_and, Bool.and_false]
  have hds : s.isEmpty = false := by
    cases s with
    | nil => exact absurd rfl h1
    | cons a l2 => rfl
  have hok : (!s.isEmpty && (c == 'm' || c == 'M')) = true := by
    rcases hc with hc | hc <;> rw [hc, hds] <;> rfl
  have hmatch : xmxPrefixMatch ('-' :: 'X' :: 'm' :: 'x' :: (s ++ c :: t)) =
      some (listToNat s, c) := by
    unfold xmxPrefixMatch
    rw [if_pos (by simp [List.isPrefixOf])]
    show (match (s ++ c :: t).dropWhile isAsciiDigit with
      | c2 :: _ =>
        if !((s ++ c :: t).takeWhile isAsciiDigit).isEmpty && (c2 == 'm' || c2 == 'M') then
          some (listToNat ((s ++ c :: t).takeWhile isAsciiDigit), c2)
        else none
      | [] => none) = some (listToNat s, c)
    rw [dropWhile_block hcdig h2, takeWhile_block hcdig h2]
    show (if (!s.isEmpty && (c == 'm' || c == 'M')) = true then some (listToNat s, c)
      else none) = some (listToNat s, c)
    rw [if_pos hok]
  simp only [increase_general_value, hpre, hdig, Bool.false_eq_true, if_false]
  show (match xmxPrefixMatch ('-' :: 'X' :: 'm' :: 'x' :: (s ++ c :: t)) with
    | some (n, c) => "-Xmx" ++ intToDecimal ((n : Int) + d) ++ String.singleton c
    | none => (⟨'-' :: 'X' :: 'm' :: 'x' :: (s ++ c :: t)⟩ : String)) = _
  rw [hmatch]

/-- Inversion of a successful yarn transformation: the result is the input
itself or one of the two freshly rendered shapes. -/
theorem increase_yarn_value_shape {value nv : String} {d : Int}
    (h : increase_yarn_value value d = .ok nv) :
    nv = value ∨ (∃ i, nv = "-Xmx" ++ intToDecimal i ++ "M") ∨ ∃ i, nv = intToDecimal i := by
  unfold increase_yarn_value at h
  by_cases h1 : (pyStartsWith value "-Xmx" && pyEndsWith value "M") = true
  · rw [if_pos h1] at h
    rcases hpi : pyInt ⟨(value.data.drop 4).dropLast⟩ with _ | num
    · rw [hpi] at h
      exact Except.noConfusion h
    · rw [hpi] at h
      exact Or.inr (Or.inl ⟨num + d, (Except.ok.inj h).symm⟩)
  · rw [if_neg h1] at h
    by_cases h2 : pyIsDigit value = true
    · rw [if_pos h2] at h
      exact Or.inr (Or.inr ⟨_, (Except.ok.inj h).symm⟩)
    · rw [if_neg h2] at h
      exact Or.inl (Except.ok.inj h).symm

/-- The suffix letter reported by the anchored -Xmx pattern is m or M. -/
theorem xmxPrefixMatch_suffix {l : List Char} {n : Nat} {c : Char}
    (h : xmxPrefixMatch l = some (n, c)) : c = 'm' ∨ c = 'M' := by
  unfold xmxPrefixMatch at h
  by_cases h1 : (['-', 'X', 'm', 'x'].isPrefixOf l) = true
  · rw [if_pos h1] at h
    rcases hdw : (l.drop 4).dropWhile isAsciiDigit with _ | ⟨c2, rest2⟩
    · rw [hdw] at h
      exact Option.noConfusion h
    · rw [hdw] at h
      have h3 : (if (!((l.drop 4).takeWhile isAsciiDigit).isEmpty && (c2 == 'm' || c2 == 'M')) = true
          then some (listToNat ((l.drop 4).takeWhile isAsciiDigit), c2) else none) =
          some (n, c) := h
      by_cases h2 : (!((l.drop 4).takeWhile isAsciiDigit).isEmpty && (c2 == 'm' || c2 == 'M')) = true
      · rw [if_pos h2] at h3
        have hc2 : c2 = c := congrArg Prod.snd (Option.some.inj h3)
        rcases (Bool.and_eq_true _ _).mp h2 with ⟨_, hor⟩
        rcases (Bool.or_eq_true _ _).mp hor with hm | hm
        · exact Or.inl (hc2 ▸ eq_of_beq hm)
        · exact Or.inr (hc2 ▸ eq_of_beq hm)
      · rw [if_neg h2] at h3
        exact Option.noConfusion h3
  · rw [if_neg h1] at h
    exact Option.noConfusion h

/-- Inversion of the general transformation: the result is the input itself
or one of the freshly rendered shapes. -/
theorem increase_general_value_shape {value nv : String} {d : Int} {j r : Bool}
    (h : increase_general_value value d j r = nv) :
    nv = value ∨ (∃ i, nv = "-Xmx" ++ intToDecimal i ++ "M") ∨ (∃ i, nv = intToDecimal i) ∨
      ∃ i c, (c = 'm' ∨ c = 'M') ∧ nv = "-Xmx" ++ intToDecimal i ++ String.singleton c := by
  unfold increase_general_value at h
  by_cases h1 : pyStartsWith value "$\x7b" = true
  · rw [if_pos h1] at h
    by_cases hr : r = true
    · rw [hr] at h
      exact Or.inr (Or.inl ⟨d - 512, by rw [← h]; rfl⟩)
    · rw [Bool.not_eq_true] at hr
      rw [hr] at h
      exact Or.inr (Or.inr (Or.inl ⟨d, by rw [← h]; rfl⟩))
  · rw [if_neg h1] at h
    by_cases h2 : pyIsDigit value = true
    · rw [if_pos h2] at h
      exact Or.inr (Or.inr (Or.inl ⟨_, h.symm⟩))
    · rw [if_neg h2] at h
      rcases hm : xmxPrefixMatch value.data with _ | ⟨n2, c2⟩
      · rw [hm] at h
        exact Or.inl h.symm
      · rw [hm] at h
        exact Or.inr (Or.inr (Or.inr ⟨(n2 : Int) + d, c2, xmxPrefixMatch_suffix hm, h.symm⟩))

/-- Strings whose underlying characters carry no whitespace are fixed by
pyStrip. -/
theorem pyStrip_eq_self {s : String} (h : ∀ c ∈ s.data, pyWs c = false) :
    pyStrip s = s := by
  cases s with
  | mk data => simpa [pyStrip] using congrArg String.mk (stripWs_no_ws h)

/-- Every freshly rendered transformer output is whitespace-free, hence
fixed by pyStrip. -/
theorem pyStrip_shapes {nv : String}
    (h : (∃ i, nv = "-Xmx" ++ intToDecimal i ++ "M") ∨ (∃ i, nv = intToDecimal i) ∨
      ∃ i c, (c = 'm' ∨ c = 'M') ∧ nv = "-Xmx" ++ intToDecimal i ++ String.singleton c) :
    pyStrip nv = nv := by
  apply pyStrip_eq_self
  rcases h with ⟨i, rfl⟩ | ⟨i, rfl⟩ | ⟨i, c, hc, rfl⟩
  · intro x hx
    simp only [String.data_append] at hx
    rcases List.mem_append.mp hx with hx | hx
    · rcases List.mem_append.mp hx with hx | hx
      · fin_cases hx <;> rfl
      · exact intToDecimal_no_ws i x hx
    · simp at hx
      rw [hx]
      rfl
  · intro x hx
    exact intToDecimal_no_ws i x hx
  · intro x hx
    simp only [String.data_append] at hx
    rcases List.mem_append.mp hx with hx | hx
    · rcases List.mem_append.mp hx with hx | hx
      · fin_cases hx <;> rfl
      · exact intToDecimal_no_ws i x hx
    · have : x = c := by
        simpa [String.singleton] using hx
      rcases hc with hc | hc <;> rw [this, hc] <;> rfl

/-- A successful replacement value differing from the stripped current value
also differs from the raw (unstripped) current text. -/
theorem new_ne_raw {m : Bool} {d : Int} {name vraw nv : String}
    (h : newValueFor m d name (pyStrip vraw) = some (.ok nv))
    (hne : nv ≠ pyStrip vraw) : nv ≠ vraw := by
  intro heq
  have hshape : pyStrip nv = nv := by
    unfold newValueFor at h
    by_cases hm : m = true
    · rw [if_pos hm] at h
      by_cases he : yarnEligible name = true
      · rw [if_pos he] at h
        have hy : increase_yarn_value (pyStrip vraw) d = .ok nv := Option.some.inj h
        rcases increase_yarn_value_shape hy with hs | hs | hs
        · exact absurd hs hne
        · exact pyStrip_shapes (Or.inl hs)
        · exact pyStrip_shapes (Or.inr (Or.inl hs))
      · rw [if_neg he] at h
        exact Option.noConfusion h
    · rw [Bool.not_eq_true] at hm
      rw [hm] at h
      show pyStrip nv = nv
      by_cases he : mrEligible name = true
      · rw [if_pos he] at h
        have hg : generalNewValue name (pyStrip vraw) d = nv :=
          Except.ok.inj (Option.some.inj h)
        rcases increase_general_value_shape hg with hs | hs | hs | hs
        · exact absurd hs hne
        · exact pyStrip_shapes (Or.inl hs)
        · exact pyStrip_shapes (Or.inr (Or.inl hs))
        · exact pyStrip_shapes (Or.inr (Or.inr hs))
      · rw [if_neg he] at h
        exact Option.noConfusion h
  rw [heq] at hshape hne
  exact hne hshape.symm

/-- A property missing its name child or its value child is silently
skipped by the step. -/
theorem stepCompute_missing {ns : String} {d : Int} {m : Bool} {cs : List XmlNode}
    (h : findTag (ns ++ "name") cs = none ∨ findTag (ns ++ "value") cs = none) :
    stepCompute ns d m cs = .ok (none, 0) := by
  unfold stepCompute
  rcases hn : findTag (ns ++ "name") cs with _ | ne
  · rfl
  · rcases hv : findTag (ns ++ "value") cs with _ | ve
    · rfl
    · rcases h with h | h
      · rw [hn] at h
        exact Option.noConfusion h
      · rw [hv] at h
        exact Option.noConfusion h

/-- The active branch selects eligibility exactly through eligibleName. -/
theorem newValueFor_some_elig {m : Bool} {d : Int} {name value : String}
    {x : Except PyErr String} (h : newValueFor m d name value = some x) :
    eligibleName m name = true := by
  unfold newValueFor at h
  unfold eligibleName
  by_cases hm : m = true
  · rw [if_pos hm] at h
    rw [if_pos hm]
    by_cases he : yarnEligible name = true
    · exact he
    · rw [if_neg he] at h
      exact Option.noConfusion h
  · rw [if_neg hm] at h
    rw [if_neg hm]
    by_cases he : mrEligible name = true
    · exact he
    · rw [if_neg he] at h
      exact Option.noConfusion h

/-- Evaluation of the write-slot eligibility test once the children lookups
are known. -/
theorem eligHere_eval {ns : String} {m : Bool} {cs : List XmlNode}
    {ne ve : XmlNode} {ntext : String}
    (hn : findTag (ns ++ "name") cs = some ne)
    (hv : findTag (ns ++ "value") cs = some ve) (ht : ne.text = some ntext) :
    eligHere ns m cs = eligibleName m (pyStrip ntext) := by
  unfold eligHere
  rw [hn, hv]
  show (match ne.text with
    | some t => eligibleName m (pyStrip t)
    | none => false) = _
  rw [ht]

/-- The step reduces to stepFromElems when both children are found. -/
theorem stepCompute_found {ns : String} {d : Int} {m : Bool} {cs : List XmlNode}
    {ne ve : XmlNode} (hn : findTag (ns ++ "name") cs = some ne)
    (hv : findTag (ns ++ "value") cs = some ve) :
    stepCompute ns d m cs = stepFromElems m d ne ve := by
  unfold stepCompute
  rw [hn, hv]

/-- The element step reduces to the text step when both texts are present. -/
theorem stepFromElems_found {m : Bool} {d : Int} {ne ve : XmlNode}
    {ntext vtext : String} (hn : ne.text = some ntext) (hv : ve.text = some vtext) :
    stepFromElems m d ne ve = stepFromTexts m d ntext vtext := by
  unfold stepFromElems
  rw [hn, hv]

/-- The element step raises when a text is absent. -/
theorem stepFromElems_err {m : Bool} {d : Int} {ne ve : XmlNode}
    (h : ne.text = none ∨ ve.text = none) :
    stepFromElems m d ne ve = .error .attributeError := by
  unfold stepFromElems
  rcases h with h | h
  · rw [h]
  · rw [h]
    rcases ne.text with _ | ntext <;> rfl

/-- Inversion of a text step that reports no pending write: count zero. -/
theorem stepFromTexts_ok_none {m : Bool} {d : Int} {ntext vtext : String} {k : Nat}
    (h : stepFromTexts m d ntext vtext = .ok (none, k)) : k = 0 := by
  unfold stepFromTexts at h
  rcases hnv : newValueFor m d (pyStrip ntext) (pyStrip vtext) with _ | x <;> rw [hnv] at h
  · exact (congrArg Prod.snd (Except.ok.inj h)).symm
  · rcases x with e | nv
    · exact Except.noConfusion h
    · have h2 : (if nv = pyStrip vtext then
          (Except.ok (none, 0) : Except PyErr (Option String × Nat))
        else Except.ok (some nv, 1)) = Except.ok (none, k) := h
      by_cases heq : nv = pyStrip vtext
      · rw [if_pos heq] at h2
        exact (congrArg Prod.snd (Except.ok.inj h2)).symm
      · rw [if_neg heq] at h2
        exact Option.noConfusion (congrArg Prod.fst (Except.ok.inj h2))

/-- Inversion of a step that reports no pending write: the count is zero. -/
theorem stepCompute_ok_none {ns : String} {d : Int} {m : Bool} {cs : List XmlNode}
    {k : Nat} (h : stepCompute ns d m cs = .ok (none, k)) : k = 0 := by
  rcases hn : findTag (ns ++ "name") cs with _ | ne
  · rw [stepCompute_missing (Or.inl hn)] at h
    exact (congrArg Prod.snd (Except.ok.inj h)).symm
  · rcases hv : findTag (ns ++ "value") cs with _ | ve
    · rw [stepCompute_missing (Or.inr hv)] at h
      exact (congrArg Prod.snd (Except.ok.inj h)).symm
    · rw [stepCompute_found hn hv] at h
      rcases hnt : ne.text with _ | ntext
      · rw [stepFromElems_err (Or.inl hnt)] at h
        exact Except.noConfusion h
      · rcases hvt : ve.text with _ | vtext
        · rw [stepFromElems_err (Or.inr hvt)] at h
          exact Except.noConfusion h
        · rw [stepFromElems_found hnt hvt] at h
          exact stepFromTexts_ok_none h

/-- Inversion of a step that reports a pending write: the count is one, the
value child and its raw text exist, the replacement differs from the raw
text, and the property is an eligible write slot. -/
theorem stepCompute_ok_some {ns : String} {d : Int} {m : Bool} {cs : List XmlNode}
    {nv : String} {k : Nat} (h : stepCompute ns d m cs = .ok (some nv, k)) :
    k = 1 ∧ eligHere ns m cs = true ∧
      ∃ ve vraw, findTag (ns ++ "value") cs = some ve ∧ ve.text = some vraw ∧ nv ≠ vraw := by
  rcases hn : findTag (ns ++ "name") cs with _ | ne
  · rw [stepCompute_missing (Or.inl hn)] at h
    exact Option.noConfusion (congrArg Prod.fst (Except.ok.inj h))
  · rcases hv : findTag (ns ++ "value") cs with _ | ve
    · rw [stepCompute_missing (Or.inr hv)] at h
      exact Option.noConfusion (congrArg Prod.fst (Except.ok.inj h))
    · rw [stepCompute_found hn hv] at h
      rcases hnt : ne.text with _ | ntext
      · rw [stepFromElems_err (Or.inl hnt)] at h
        exact Except.noConfusion h
      · rcases hvt : ve.text with _ | vtext
        · rw [stepFromElems_err (Or.inr hvt)] at h
          exact Except.noConfusion h
        · rw [stepFromElems_found hnt hvt] at h
          unfold stepFromTexts at h
          rcases hnv : newValueFor m d (pyStrip ntext) (pyStrip vtext) with _ | x <;>
            rw [hnv] at h
          · exact Option.noConfusion (congrArg Prod.fst (Except.ok.inj h))
          · rcases x with e | nv2
            · exact Except.noConfusion h
            · have h2 : (if nv2 = pyStrip vtext then
                  (Except.ok (none, 0) : Except PyErr (Option String × Nat))
                else Except.ok (some nv2, 1)) = Except.ok (some nv, k) := h
              by_cases heq : nv2 = pyStrip vtext
              · rw [if_pos heq] at h2
                exact Option.noConfusion (congrArg Prod.fst (Except.ok.inj h2))
              · rw [if_neg heq] at h2
                have hp := Except.ok.inj h2
                have hnv2 : nv2 = nv := Option.some.inj (congrArg Prod.fst hp)
                have hk : k = 1 := (congrArg Prod.snd hp).symm
                subst hnv2
                refine ⟨hk, ?_, ve, vtext, rfl, hvt, new_ne_raw hnv heq⟩
                rw [eligHere_eval hn hv hnt]
                exact newValueFor_some_elig hnv

/-- String append on the left is cancellable. -/
theorem string_append_left_cancel {a b c : String} (h : a ++ b = a ++ c) : b = c := by
  have hd : a.data ++ b.data = a.data ++ c.data := by
    rw [← String.data_append, ← String.data_append, h]
  have h2 := List.append_cancel_left hd
  cases b
  cases c
  exact congrArg String.mk h2

/-- The qualified name tag and value tag never coincide. -/
theorem name_tag_ne_value_tag (ns : String) : ns ++ "name" ≠ ns ++ "value" := by
  intro h
  have := string_append_left_cancel h
  simp at this

/-- Parallel lookups in top-related forests agree on presence and relate the
found elements. -/
theorem findTag_rel {t : String} {l l2 : List XmlNode}
    (h : List.Forall₂ nodeTop l l2) :
    (findTag t l = none ∧ findTag t l2 = none) ∨
      ∃ a b, findTag t l = some a ∧ findTag t l2 = some b ∧ nodeTop a b := by
  induction h with
  | nil => exact Or.inl ⟨rfl, rfl⟩
  | cons hab htail ih =>
    rename_i a b l1 l3
    by_cases ht : (a.tag == t) = true
    · refine Or.inr ⟨a, b, ?_, ?_, hab⟩
      · simp [findTag, List.find?_cons, ht]
      · have : (b.tag == t) = true := by rw [← hab.1]; exact ht
        simp [findTag, List.find?_cons, this]
    · have hbt : (b.tag == t) = false := by
        rw [← hab.1]
        exact Bool.not_eq_true _ ▸ Bool.of_not_eq_true ht
      have hat : (a.tag == t) = false := Bool.not_eq_true _ ▸ Bool.of_not_eq_true ht
      rcases ih with ⟨h1, h2⟩ | ⟨x, y, h1, h2, hxy⟩
      · refine Or.inl ⟨?_, ?_⟩
        · simpa [findTag, List.find?_cons, hat] using h1
        · simpa [findTag, List.find?_cons, hbt] using h2
      · refine Or.inr ⟨x, y, ?_, ?_, hxy⟩
        · simpa [findTag, List.find?_cons, hat] using h1
        · simpa [findTag, List.find?_cons, hbt] using h2

/-- A property with a missing name or value child is not a write slot. -/
theorem eligHere_missing {ns : String} {m : Bool} {cs : List XmlNode}
    (h : findTag (ns ++ "name") cs = none ∨ findTag (ns ++ "value") cs = none) :
    eligHere ns m cs = false := by
  unfold eligHere
  rcases hn : findTag (ns ++ "name") cs with _ | ne
  · rfl
  · rcases hv : findTag (ns ++ "value") cs with _ | ve
    · rfl
    · rcases h with h | h
      · rw [hn] at h
        exact Option.noConfusion h
      · rw [hv] at h
        exact Option.noConfusion h

/-- A property whose name child carries no text is not a write slot. -/
theorem eligHere_textless {ns : String} {m : Bool} {cs : List XmlNode}
    {ne ve : XmlNode} (hn : findTag (ns ++ "name") cs = some ne)
    (hv : findTag (ns ++ "value") cs = some ve) (ht : ne.text = none) :
    eligHere ns m cs = false := by
  unfold eligHere
  rw [hn, hv]
  show (match ne.text with
    | some t => eligibleName m (pyStrip t)
    | none => false) = false
  rw [ht]

/-- The write-slot eligibility test only reads top-level data, so it is
invariant under top-related replacement of the forest. -/
theorem eligHere_congr {ns : String} {m : Bool} {l l2 : List XmlNode}
    (h : List.Forall₂ nodeTop l l2) : eligHere ns m l = eligHere ns m l2 := by
  rcases findTag_rel (t := ns ++ "name") h with ⟨hn1, hn2⟩ | ⟨a, b, hn1, hn2, hab⟩
  · rw [eligHere_missing (Or.inl hn1), eligHere_missing (Or.inl hn2)]
  · rcases findTag_rel (t := ns ++ "value") h with ⟨hv1, hv2⟩ | ⟨x, y, hv1, hv2, hxy⟩
    · rw [eligHere_missing (Or.inr hv1), eligHere_missing (Or.inr hv2)]
    · rcases hat : a.text with _ | t
      · have hbt : b.text = none := by rw [← hab.2.2]; exact hat
        rw [eligHere_textless hn1 hv1 hat, eligHere_textless hn2 hv2 hbt]
      · have hbt : b.text = some t := by rw [← hab.2.2]; exact hat
        rw [eligHere_eval hn1 hv1 hat, eligHere_eval hn2 hv2 hbt]

/-- A boolean that is not true is false. -/
theorem bool_not_true {b : Bool} (h : ¬(b = true)) : b = false := by
  cases b
  · rfl
  · exact absurd rfl h

/-- Rewriting the first element of one tag leaves lookups of any other tag
unchanged. -/
theorem findTag_set_ne {t t2 nv : String} (hne : t2 ≠ t) :
    ∀ l : List XmlNode, findTag t2 (setFirstValueText t nv l) = findTag t2 l := by
  intro l
  induction l with
  | nil => rfl
  | cons x rest ih =>
    rcases x with ⟨tg, a, tx, cs⟩
    unfold setFirstValueText
    by_cases h1 : (tg == t) = true
    · rw [if_pos h1]
      have h2 : (tg == t2) = false := by
        have : tg = t := eq_of_beq h1
        exact beq_eq_false_iff_ne.mpr (by rw [this]; exact fun hh => hne hh.symm)
      show findTag t2 (XmlNode.elem tg a (some nv) cs :: rest) =
        findTag t2 (XmlNode.elem tg a tx cs :: rest)
      unfold findTag
      rw [List.find?_cons, List.find?_cons]
      show (bif XmlNode.tag (XmlNode.elem tg a (some nv) cs) == t2 then _ else _) = _
      have htag : XmlNode.tag (XmlNode.elem tg a (some nv) cs) = tg := rfl
      have htag2 : XmlNode.tag (XmlNode.elem tg a tx cs) = tg := rfl
      rw [htag, htag2, h2]
      rfl
    · rw [if_neg h1]
      show findTag t2 (XmlNode.elem tg a tx cs :: setFirstValueText t nv rest) = _
      unfold findTag
      rw [List.find?_cons, List.find?_cons]
      by_cases h2 : (tg == t2) = true
      · show (bif XmlNode.tag (XmlNode.elem tg a tx cs) == t2 then _ else _) = _
        have htag : XmlNode.tag (XmlNode.elem tg a tx cs) = tg := rfl
        rw [htag, h2]
        rfl
      · show (bif XmlNode.tag (XmlNode.elem tg a tx cs) == t2 then _ else _) = _
        have htag : XmlNode.tag (XmlNode.elem tg a tx cs) = tg := rfl
        rw [htag, bool_not_true h2]
        show findTag t2 (setFirstValueText t nv rest) = findTag t2 rest
        exact ih

/-- Rewriting the first element of a tag that does not occur still finds
nothing. -/
theorem findTag_set_self_none {t nv : String} :
    ∀ {l : List XmlNode}, findTag t l = none →
      findTag t (setFirstValueText t nv l) = none := by
  intro l
  induction l with
  | nil => intro _; rfl
  | cons x rest ih =>
    intro h
    rcases x with ⟨tg, a, tx, cs⟩
    have hfind : (bif tg == t then some (XmlNode.elem tg a tx cs) else findTag t rest) =
        none := h
    by_cases h1 : (tg == t) = true
    · rw [h1] at hfind
      exact Option.noConfusion hfind
    · have h1f : (tg == t) = false := bool_not_true h1
      rw [h1f] at hfind
      unfold setFirstValueText
      rw [if_neg h1]
      show (bif tg == t then _ else findTag t (setFirstValueText t nv rest)) = none
      rw [h1f]
      show findTag t (setFirstValueText t nv rest) = none
      exact ih hfind

/-- Rewriting the first element of a tag updates exactly the found element. -/
theorem findTag_set_self_some {t v : String} :
    ∀ {l : List XmlNode} {tg : String} {a : List (String × String)}
      {tx : Option String} {cs : List XmlNode},
      findTag t l = some (XmlNode.elem tg a tx cs) →
      findTag t (setFirstValueText t v l) = some (XmlNode.elem tg a (some v) cs) := by
  intro l
  induction l with
  | nil => intro tg a tx cs h; exact Option.noConfusion h
  | cons x rest ih =>
    intro tg a tx cs h
    rcases x with ⟨tg2, a2, tx2, cs2⟩
    have hfind : (bif tg2 == t then some (XmlNode.elem tg2 a2 tx2 cs2) else findTag t rest) =
        some (XmlNode.elem tg a tx cs) := h
    by_cases h1 : (tg2 == t) = true
    · rw [h1] at hfind
      have he := Option.some.inj hfind
      unfold setFirstValueText
      rw [if_pos h1]
      show (bif tg2 == t then some (XmlNode.elem tg2 a2 (some v) cs2) else _) = _
      rw [h1]
      show some (XmlNode.elem tg2 a2 (some v) cs2) = some (XmlNode.elem tg a (some v) cs)
      cases he
      rfl
    · have h1f : (tg2 == t) = false := bool_not_true h1
      rw [h1f] at hfind
      unfold setFirstValueText
      rw [if_neg h1]
      show (bif tg2 == t then _ else findTag t (setFirstValueText t v rest)) = _
      rw [h1f]
      exact ih hfind

/-- The eligibility test is unchanged by rewriting the value-child text,
since it reads only the name text and the presence of the value child. -/
theorem eligHere_set {ns : String} {m : Bool} {nv : String} {l : List XmlNode} :
    eligHere ns m (setFirstValueText (ns ++ "value") nv l) = eligHere ns m l := by
  have hne := name_tag_ne_value_tag ns
  rcases hn : findTag (ns ++ "name") l with _ | ne
  · rw [eligHere_missing (Or.inl hn),
      eligHere_missing (Or.inl (by rw [findTag_set_ne hne]; exact hn))]
  · have hn2 : findTag (ns ++ "name") (setFirstValueText (ns ++ "value") nv l) = some ne := by
      rw [findTag_set_ne hne]
      exact hn
    rcases hv : findTag (ns ++ "value") l with _ | ve
    · rw [eligHere_missing (Or.inr hv),
        eligHere_missing (Or.inr (findTag_set_self_none hv))]
    · rcases ve with ⟨tg, a, tx, cs⟩
      have hv2 := findTag_set_self_some (v := nv) hv
      rcases hat : ne.text with _ | t
      · rw [eligHere_textless hn hv hat, eligHere_textless hn2 hv2 hat]
      · rw [eligHere_eval hn hv hat, eligHere_eval hn2 hv2 hat]

/-- Rewriting the found value-child text with a different string adds
exactly one text difference against the original forest. -/
theorem diffF_set {t nv : String} : ∀ {cs cs2 : List XmlNode},
    List.Forall₂ nodeTop cs cs2 →
    ∀ {ve : XmlNode} {vraw : String}, findTag t cs = some ve → ve.text = some vraw →
    nv ≠ vraw → diffF cs (setFirstValueText t nv cs2) = 1 + diffF cs cs2 := by
  intro cs cs2 h
  induction h with
  | nil =>
    intro ve vraw hfind _ _
    exact Option.noConfusion hfind
  | cons hab htail ih =>
    rename_i x y l1 l3
    intro ve vraw hfind hraw hne
    rcases x with ⟨tgx, ax, txx, csx⟩
    rcases y with ⟨tgy, ay, tyy, csy⟩
    have htg : tgx = tgy := hab.1
    have htx : txx = tyy := hab.2.2
    have hfind2 : (bif tgx == t then some (XmlNode.elem tgx ax txx csx) else findTag t l1) =
        some ve := hfind
    by_cases h1 : (tgx == t) = true
    · rw [h1] at hfind2
      have hve : XmlNode.elem tgx ax txx csx = ve := Option.some.inj hfind2
      have htxx : txx = some vraw := by rw [← hraw, ← hve]; rfl
      unfold setFirstValueText
      rw [if_pos (by rw [← htg]; exact h1)]
      show diffN (XmlNode.elem tgx ax txx csx) (XmlNode.elem tgy ay (some nv) csy) +
          diffF l1 l3 = 1 +
          (diffN (XmlNode.elem tgx ax txx csx) (XmlNode.elem tgy ay tyy csy) + diffF l1 l3)
      rw [diffN, diffN]
      rw [if_neg (by rw [htxx]; intro hh; exact hne (Option.some.inj hh).symm),
        if_pos htx]
      omega
    · have h1f : (tgx == t) = false := bool_not_true h1
      rw [h1f] at hfind2
      unfold setFirstValueText
      rw [if_neg (by rw [← htg]; exact h1)]
      show diffN (XmlNode.elem tgx ax txx csx) (XmlNode.elem tgy ay tyy csy) +
          diffF l1 (setFirstValueText t nv l3) = 1 +
          (diffN (XmlNode.elem tgx ax txx csx) (XmlNode.elem tgy ay tyy csy) + diffF l1 l3)
      rw [ih hfind2 hraw hne]
      omega

/-- Head equation of setFirstValueText when the head tag matches. -/
theorem setFirst_cons_hit {t nv tg : String} {a : List (String × String)}
    {tx : Option String} {cs : List XmlNode} {rest : List XmlNode}
    (h : (tg == t) = true) :
    setFirstValueText t nv (XmlNode.elem tg a tx cs :: rest) =
      XmlNode.elem tg a (some nv) cs :: rest := by
  rw [setFirstValueText]
  rw [if_pos h]

/-- Head equation of setFirstValueText when the head tag differs. -/
theorem setFirst_cons_miss {t nv tg : String} {a : List (String × String)}
    {tx : Option String} {cs : List XmlNode} {rest : List XmlNode}
    (h : (tg == t) = false) :
    setFirstValueText t nv (XmlNode.elem tg a tx cs :: rest) =
      XmlNode.elem tg a tx cs :: setFirstValueText t nv rest := by
  rw [setFirstValueText]
  rw [if_neg (by rw [h]; exact Bool.false_ne_true)]

/-- Head equation of zapFirstValue when the head tag matches. -/
theorem zapFirst_cons_hit {t tg : String} {a : List (String × String)}
    {tx : Option String} {cs : List XmlNode} {rest : List XmlNode}
    (h : (tg == t) = true) :
    zapFirstValue t (XmlNode.elem tg a tx cs :: rest) =
      XmlNode.elem tg a none cs :: rest := by
  rw [zapFirstValue]
  rw [if_pos h]

/-- Head equation of zapFirstValue when the head tag differs. -/
theorem zapFirst_cons_miss {t tg : String} {a : List (String × String)}
    {tx : Option String} {cs : List XmlNode} {rest : List XmlNode}
    (h : (tg == t) = false) :
    zapFirstValue t (XmlNode.elem tg a tx cs :: rest) =
      XmlNode.elem tg a tx cs :: zapFirstValue t rest := by
  rw [zapFirstValue]
  rw [if_neg (by rw [h]; exact Bool.false_ne_true)]

/-- Masking commutes with rewriting the first value-child text, because the
mask of an element never reads its own text. -/
theorem maskF_set {ns : String} {m : Bool} {t nv : String} :
    ∀ l : List XmlNode,
      maskF ns m (setFirstValueText t nv l) = setFirstValueText t nv (maskF ns m l) := by
  intro l
  induction l with
  | nil => rfl
  | cons x rest ih =>
    rcases x with ⟨tg, a, tx, cs⟩
    by_cases h1 : (tg == t) = true
    · rw [setFirst_cons_hit h1, maskF, maskF, maskN, maskN, setFirst_cons_hit h1]
    · have h1f := bool_not_true h1
      rw [setFirst_cons_miss h1f, maskF, maskF, maskN, setFirst_cons_miss h1f, ih]

/-- Erasing the first value-child text absorbs a previous rewrite of the
same slot. -/
theorem zap_set {t nv : String} : ∀ l : List XmlNode,
    zapFirstValue t (setFirstValueText t nv l) = zapFirstValue t l := by
  intro l
  induction l with
  | nil => rfl
  | cons x rest ih =>
    rcases x with ⟨tg, a, tx, cs⟩
    by_cases h1 : (tg == t) = true
    · rw [setFirst_cons_hit h1, zapFirst_cons_hit h1, zapFirst_cons_hit h1]
    · have h1f := bool_not_true h1
      rw [setFirst_cons_miss h1f, zapFirst_cons_miss h1f, zapFirst_cons_miss h1f, ih]

/-- Soundness of the walk on a forest, by strong induction through a fuel
bound on the size: a successful walk relates input and output pointwise at
the top, returns exactly the number of text positions that differ, and
preserves the document outside the eligible value slots. -/
theorem processForest_sound (ns : String) (d : Int) (m : Bool) :
    ∀ (k : Nat) (l : List XmlNode), sizeOf l ≤ k →
      ∀ {l2 : List XmlNode} {c : Nat}, processForest ns d m l = .ok (l2, c) →
        List.Forall₂ nodeTop l l2 ∧ c = diffF l l2 ∧ maskF ns m l2 = maskF ns m l := by
  intro k
  induction k with
  | zero =>
    intro l hl
    exfalso
    cases l <;> simp at hl
  | succ k ih =>
    intro l hl l2 c hp
    cases l with
    | nil =>
      rw [processForest] at hp
      obtain ⟨h1, h2⟩ := Prod.mk.injEq _ _ _ _ ▸ Except.ok.inj hp
      subst h1
      subst h2
      exact ⟨List.Forall₂.nil, rfl, rfl⟩
    | cons x rest =>
      rcases x with ⟨tag, attrs, tx, children⟩
      have hszc : sizeOf children ≤ k := by
        have h1 : sizeOf (XmlNode.elem tag attrs tx children :: rest) ≤ k + 1 := hl
        simp [List.cons.sizeOf_spec, XmlNode.elem.sizeOf_spec] at h1
        omega
      have hszr : sizeOf rest ≤ k := by
        have h1 : sizeOf (XmlNode.elem tag attrs tx children :: rest) ≤ k + 1 := hl
        simp [List.cons.sizeOf_spec, XmlNode.elem.sizeOf_spec] at h1
        omega
      rw [processForest] at hp
      rcases hnode : processNode ns d m (.elem tag attrs tx children) with e | ⟨n2, c1⟩ <;>
        rw [hnode] at hp
      · exact Except.noConfusion hp
      · rcases hrest : processForest ns d m rest with e | ⟨rest2, c2r⟩ <;>
          rw [hrest] at hp
        · exact Except.noConfusion hp
        · obtain ⟨hl2, hc⟩ := Prod.mk.injEq _ _ _ _ ▸ Except.ok.inj hp
          subst hl2
          subst hc
          obtain ⟨hFr, hDr, hMr⟩ := ih rest hszr hrest
          rw [processNode] at hnode
          by_cases htag : (tag == ns ++ "property") = true
          · rw [if_pos htag] at hnode
            rcases hstep : stepCompute ns d m children with e | ⟨u, c1s⟩ <;>
              rw [hstep] at hnode
            · exact Except.noConfusion hnode
            · have hnode2 : (match processForest ns d m children with
                | .error e => (Except.error e : Except PyErr (XmlNode × Nat))
                | .ok (cs2, c2) =>
                  Except.ok (XmlNode.elem tag attrs tx (applyUpd (ns ++ "value") u cs2),
                    c1s + c2)) = .ok (n2, c1) := hnode
              rcases hch : processForest ns d m children with e | ⟨cs2, c2c⟩ <;>
                rw [hch] at hnode2
              · exact Except.noConfusion hnode2
              · obtain ⟨hn2, hc1⟩ := Prod.mk.injEq _ _ _ _ ▸ Except.ok.inj hnode2
                obtain ⟨hF, hD, hM⟩ := ih children hszc hch
                cases u with
                | none =>
                  have hc1s : c1s = 0 := stepCompute_ok_none hstep
                  have hn2e : n2 = XmlNode.elem tag attrs tx cs2 := hn2.symm
                  subst hn2e
                  refine ⟨List.Forall₂.cons ⟨rfl, rfl, rfl⟩ hFr, ?_, ?_⟩
                  · show c1 + c2r = diffF (XmlNode.elem tag attrs tx children :: rest)
                      (XmlNode.elem tag attrs tx cs2 :: rest2)
                    rw [diffF, diffN, if_pos rfl]
                    omega
                  · rw [maskF, maskF, maskN, maskN, eligHere_congr hF, hM, hMr]
                | some nv =>
                  obtain ⟨hc1s, helig, ve, vraw, hfind, hraw, hnvne⟩ :=
                    stepCompute_ok_some hstep
                  have hn2e : n2 = XmlNode.elem tag attrs tx
                      (setFirstValueText (ns ++ "value") nv cs2) := hn2.symm
                  subst hn2e
                  refine ⟨List.Forall₂.cons ⟨rfl, rfl, rfl⟩ hFr, ?_, ?_⟩
                  · show c1 + c2r = diffF (XmlNode.elem tag attrs tx children :: rest)
                      (XmlNode.elem tag attrs tx (setFirstValueText (ns ++ "value") nv cs2)
                        :: rest2)
                    rw [diffF, diffN, if_pos rfl, diffF_set hF hfind hraw hnvne]
                    omega
                  · rw [maskF, maskF, maskN, maskN]
                    have he1 : eligHere ns m (setFirstValueText (ns ++ "value") nv cs2) =
                        eligHere ns m children := by
                      rw [eligHere_set, ← eligHere_congr hF]
                    rw [he1, helig, maskF_set, zap_set, hM, hMr]
                    simp [htag]
          · have htagf := bool_not_true htag
            rw [if_neg htag] at hnode
            have hnode2 : (match processForest ns d m children with
              | .error e => (Except.error e : Except PyErr (XmlNode × Nat))
              | .ok (cs2, c2) =>
                Except.ok (XmlNode.elem tag attrs tx (applyUpd (ns ++ "value") none cs2),
                  0 + c2)) = .ok (n2, c1) := hnode
            rcases hch : processForest ns d m children with e | ⟨cs2, c2c⟩ <;>
              rw [hch] at hnode2
            · exact Except.noConfusion hnode2
            · obtain ⟨hn2, hc1⟩ := Prod.mk.injEq _ _ _ _ ▸ Except.ok.inj hnode2
              obtain ⟨hF, hD, hM⟩ := ih children hszc hch
              have hn2e : n2 = XmlNode.elem tag attrs tx cs2 := hn2.symm
              subst hn2e
              refine ⟨List.Forall₂.cons ⟨rfl, rfl, rfl⟩ hFr, ?_, ?_⟩
              · show c1 + c2r = diffF (XmlNode.elem tag attrs tx children :: rest)
                  (XmlNode.elem tag attrs tx cs2 :: rest2)
                rw [diffF, diffN, if_pos rfl]
                omega
              · rw [maskF, maskF, maskN, maskN, eligHere_congr hF, hM, hMr]

/-- Soundness of the walk on a single element. -/
theorem processNode_sound {ns : String} {d : Int} {m : Bool} {n n2 : XmlNode} {c : Nat}
    (h : processNode ns d m n = .ok (n2, c)) :
    nodeTop n n2 ∧ c = diffN n n2 ∧ maskN ns m n2 = maskN ns m n := by
  have hf : processForest ns d m [n] = .ok ([n2], c + 0) := by
    rw [processForest, h]
    rfl
  obtain ⟨hF, hD, hM⟩ := processForest_sound ns d m (sizeOf [n]) [n] (Nat.le_refl _) hf
  refine ⟨?_, ?_, ?_⟩
  · cases hF with
    | cons hab _ => exact hab
  · have : c + 0 = diffN n n2 + diffF [] [] := hD
    simpa using this
  · have hM2 := hM
    simp only [maskF] at hM2
    exact (List.cons.injEq _ _ _ _ ▸ hM2).1

/-- An ineligible name never produces a replacement value. -/
theorem newValueFor_none_of_inelig {m : Bool} {d : Int} {name value : String}
    (h : eligibleName m name = false) : newValueFor m d name value = none := by
  unfold newValueFor
  unfold eligibleName at h
  by_cases hm : m = true
  · rw [if_pos hm] at h ⊢
    rw [if_neg (by rw [h]; exact Bool.false_ne_true)]
  · rw [if_neg hm] at h ⊢
    rw [if_neg (by rw [h]; exact Bool.false_ne_true)]

/-- A text-wellformed property with an ineligible name is a silent no-op of
the step. -/
theorem step_noop_of_inelig {ns : String} {m : Bool} {d : Int} {cs : List XmlNode}
    (h1 : nameEligHere ns m cs = false) (h2 : textsHere ns cs = true) :
    stepCompute ns d m cs = .ok (none, 0) := by
  rcases hn : findTag (ns ++ "name") cs with _ | ne
  · exact stepCompute_missing (Or.inl hn)
  · rcases hv : findTag (ns ++ "value") cs with _ | ve
    · exact stepCompute_missing (Or.inr hv)
    · have h2b : (ne.text.isSome && ve.text.isSome) = true := by
        unfold textsHere at h2
        rw [hn, hv] at h2
        exact h2
      obtain ⟨hnt2, hvt2⟩ := (Bool.and_eq_true _ _).mp h2b
      rcases hnt : ne.text with _ | ntext
      · rw [hnt] at hnt2
        simp at hnt2
      · rcases hvt : ve.text with _ | vtext
        · rw [hvt] at hvt2
          simp at hvt2
        · have h1b : eligibleName m (pyStrip ntext) = false := by
            unfold nameEligHere at h1
            rw [hn] at h1
            have h1c : (match ne.text with
              | some t => eligibleName m (pyStrip t)
              | none => false) = false := h1
            rw [hnt] at h1c
            exact h1c
          rw [stepCompute_found hn hv, stepFromElems_found hnt hvt]
          unfold stepFromTexts
          rw [newValueFor_none_of_inelig h1b]

/-- A forest all of whose property steps are silent no-ops is returned
verbatim with a zero count. -/
theorem processForest_noop (ns : String) (d : Int) (m : Bool) :
    ∀ (k : Nat) (l : List XmlNode), sizeOf l ≤ k →
      allPropsF ns (fun cs => decide (stepCompute ns d m cs = Except.ok (none, 0))) l = true →
      processForest ns d m l = .ok (l, 0) := by
  intro k
  induction k with
  | zero =>
    intro l hl
    exfalso
    cases l <;> simp at hl
  | succ k ih =>
    intro l hl hall
    cases l with
    | nil => rw [processForest]
    | cons x rest =>
      rcases x with ⟨tag, attrs, tx, children⟩
      have hszc : sizeOf children ≤ k := by
        have h1 : sizeOf (XmlNode.elem tag attrs tx children :: rest) ≤ k + 1 := hl
        simp [List.cons.sizeOf_spec, XmlNode.elem.sizeOf_spec] at h1
        omega
      have hszr : sizeOf rest ≤ k := by
        have h1 : sizeOf (XmlNode.elem tag attrs tx children :: rest) ≤ k + 1 := hl
        simp [List.cons.sizeOf_spec, XmlNode.elem.sizeOf_spec] at h1
        omega
      rw [allPropsF] at hall
      obtain ⟨hx, hrest⟩ := (Bool.and_eq_true _ _).mp hall
      rw [allPropsN] at hx
      obtain ⟨hstep, hchildren⟩ := (Bool.and_eq_true _ _).mp hx
      have hnode : processNode ns d m (XmlNode.elem tag attrs tx children) =
          .ok (XmlNode.elem tag attrs tx children, 0) := by
        rw [processNode]
        have hsc : (if tag == ns ++ "property" then stepCompute ns d m children
            else Except.ok (none, 0)) = Except.ok (none, 0) := by
          by_cases htag : (tag == ns ++ "property") = true
          · rw [if_pos htag]
            rw [if_pos htag] at hstep
            exact of_decide_eq_true hstep
          · rw [if_neg htag]
        rw [hsc]
        show (match processForest ns d m children with
          | .error e => (Except.error e : Except PyErr (XmlNode × Nat))
          | .ok (cs2, c2) =>
            Except.ok (XmlNode.elem tag attrs tx (applyUpd (ns ++ "value") none cs2),
              0 + c2)) = _
        rw [ih children hszc hchildren]
        rfl
      rw [processForest, hnode, ih rest hszr hrest]

/-- Singleton bridge between the forest and element forms of allProps. -/
theorem allPropsF_singleton {ns : String} {p : List XmlNode → Bool} {n : XmlNode} :
    allPropsF ns p [n] = allPropsN ns p n := by
  rw [allPropsF, allPropsF, Bool.and_true]

/-- An element all of whose property steps are silent no-ops is returned
verbatim with a zero count. -/
theorem processNode_noop {ns : String} {d : Int} {m : Bool} {n : XmlNode}
    (h : allPropsN ns (fun cs => decide (stepCompute ns d m cs = Except.ok (none, 0))) n =
      true) : processNode ns d m n = .ok (n, 0) := by
  have hf : processForest ns d m [n] = .ok ([n], 0) :=
    processForest_noop ns d m (sizeOf [n]) [n] (Nat.le_refl _)
      (by rw [allPropsF_singleton]; exact h)
  rcases hnode : processNode ns d m n with e | ⟨n2, c1⟩
  · rw [processForest, hnode] at hf
    exact Except.noConfusion hf
  · rw [processForest, hnode] at hf
    have hf2 : (Except.ok ([n2], c1 + 0) : Except PyErr (List XmlNode × Nat)) =
        .ok ([n], 0) := by
      rw [← hf]
      rfl
    obtain ⟨h1, h2⟩ := Prod.mk.injEq _ _ _ _ ▸ Except.ok.inj hf2
    have hn2 : n2 = n := (List.cons.injEq _ _ _ _ ▸ h1).1
    have hc1 : c1 = 0 := by omega
    rw [hn2, hc1]

/-- Pointwise implication lifts through the property-wise conjunction. -/
theorem allPropsF_imp (ns : String) {p q r : List XmlNode → Bool}
    (himp : ∀ cs, p cs = true → q cs = true → r cs = true) :
    ∀ (k : Nat) (l : List XmlNode), sizeOf l ≤ k →
      allPropsF ns p l = true → allPropsF ns q l = true → allPropsF ns r l = true := by
  intro k
  induction k with
  | zero =>
    intro l hl
    exfalso
    cases l <;> simp at hl
  | succ k ih =>
    intro l hl hp hq
    cases l with
    | nil => rfl
    | cons x rest =>
      rcases x with ⟨tag, attrs, tx, children⟩
      have hszc : sizeOf children ≤ k := by
        have h1 : sizeOf (XmlNode.elem tag attrs tx children :: rest) ≤ k + 1 := hl
        simp [List.cons.sizeOf_spec, XmlNode.elem.sizeOf_spec] at h1
        omega
      have hszr : sizeOf rest ≤ k := by
        have h1 : sizeOf (XmlNode.elem tag attrs tx children :: rest) ≤ k + 1 := hl
        simp [List.cons.sizeOf_spec, XmlNode.elem.sizeOf_spec] at h1
        omega
      rw [allPropsF] at hp hq ⊢
      obtain ⟨hp1, hp2⟩ := (Bool.and_eq_true _ _).mp hp
      obtain ⟨hq1, hq2⟩ := (Bool.and_eq_true _ _).mp hq
      rw [allPropsN] at hp1 hq1
      obtain ⟨hp11, hp12⟩ := (Bool.and_eq_true _ _).mp hp1
      obtain ⟨hq11, hq12⟩ := (Bool.and_eq_true _ _).mp hq1
      have hr1 : allPropsN ns r (XmlNode.elem tag attrs tx children) = true := by
        rw [allPropsN]
        refine (Bool.and_eq_true _ _).mpr ⟨?_, ih children hszc hp12 hq12⟩
        by_cases htag : (tag == ns ++ "property") = true
        · rw [if_pos htag]
          rw [if_pos htag] at hp11 hq11
          exact himp children hp11 hq11
        · rw [if_neg htag]
      rw [hr1, ih rest hszr hp2 hq2]
      rfl

/-- Two strings with the same character data are equal. -/
theorem string_eq_of_data {s : String} {l : List Char} (h : s.data = l) : s = ⟨l⟩ := by
  cases s
  exact congrArg String.mk h

/-- Strings wrapped between a common prefix and suffix are cancellable. -/
theorem wrap_inj {x y : String} (pre suf : String)
    (h : pre ++ x ++ suf = pre ++ y ++ suf) : x = y := by
  have hd := congrArg String.data h
  rw [String.data_append, String.data_append, String.data_append, String.data_append] at hd
  have h1 := List.append_cancel_right hd
  have h2 := List.append_cancel_left h1
  cases x
  cases y
  exact congrArg String.mk h2

/-- The rendering of a positive integer is a nonempty digit string. -/
theorem intToDecimal_pos_digits {i : Int} (h : 0 < i) :
    (intToDecimal i).data ≠ [] ∧ ∀ c ∈ (intToDecimal i).data, isAsciiDigit c = true := by
  rw [intToDecimal_nonneg (le_of_lt h)]
  exact ⟨natToDigits_ne_nil _, natToDigits_all_digit _⟩

/-- The digit value read back from a rendered nonnegative integer. -/
theorem listToNat_intToDecimal {i : Int} (h : 0 ≤ i) :
    listToNat (intToDecimal i).data = i.toNat := by
  rw [intToDecimal_nonneg h]
  exact listToNat_natToDigits _

/-- Claim C1, counterexample: the value -XmxabcM passes the prefix and
suffix checks of increase_yarn_value, so the interior abc reaches int and
raises ValueError instead of the claimed no-op identity return. -/
theorem claim1_counterexample :
    increase_yarn_value "-XmxabcM" 1024 = Except.error PyErr.valueError ∧
      increase_yarn_value "-XmxabcM" 1024 ≠ Except.ok "-XmxabcM" := by
  refine ⟨by rfl, ?_⟩
  intro h
  rw [show increase_yarn_value "-XmxabcM" 1024 = Except.error PyErr.valueError from rfl] at h
  exact Except.noConfusion h

/-- Claim C1, amended: increase_yarn_value is a total no-op identity on
every value that fails the -Xmx prefix or the M suffix check and is not
digit-only; a value passing both checks with a non-integer interior instead
raises ValueError. -/
theorem claim1_yarn_identity (v : String) (d : Int)
    (h1 : pyStartsWith v "-Xmx" = false ∨ pyEndsWith v "M" = false)
    (h2 : pyIsDigit v = false) :
    increase_yarn_value v d = Except.ok v :=
  increase_yarn_value_fallback v d h1 h2

/-- Claim C1, witness: the unrecognized value hello is returned unchanged. -/
theorem claim1_yarn_identity_witness : increase_yarn_value "hello" 7 = Except.ok "hello" :=
  claim1_yarn_identity "hello" 7 (Or.inl (by rfl)) (by rfl)

/-- Claim C3: on every placeholder value, increase_general_value returns
the string -Xmx followed by the rendering of delta minus 512 and M when
is_reduce_memory holds, and the rendering of delta otherwise, for either
setting of is_java_opt. -/
theorem claim3_placeholder (value : String) (d : Int) (j r : Bool)
    (h : pyStartsWith value "$\x7b" = true) :
    increase_general_value value d j r =
      if r then "-Xmx" ++ intToDecimal (d - 512) ++ "M" else intToDecimal d :=
  increase_general_value_placeholder value d j r h

/-- Claim C3, witness: a concrete placeholder under both flag settings. -/
theorem claim3_placeholder_witness :
    increase_general_value "$\x7bfoo\x7d" 1024 false true = "-Xmx512M" ∧
      increase_general_value "$\x7bfoo\x7d" 1024 false false = "1024" :=
  ⟨(claim3_placeholder _ 1024 false true (by rfl)).trans (by rfl),
    (claim3_placeholder _ 1024 false false (by rfl)).trans (by rfl)⟩

/-- Claim C6: a property name that contains mapreduce.reduce.memory.mb as a
substring without being exactly that string is transformed with
is_reduce_memory false, so its placeholder value becomes the rendering of
the delta rather than an -Xmx string. -/
theorem claim6_exact_reduce (name value : String) (d : Int)
    (hsub : pyContains name "mapreduce.reduce.memory.mb" = true)
    (hexact : name ≠ "mapreduce.reduce.memory.mb")
    (hph : pyStartsWith value "$\x7b" = true) :
    generalNewValue name value d = intToDecimal d := by
  unfold generalNewValue
  rw [increase_general_value_placeholder _ _ _ _ hph]
  rw [beq_eq_false_iff_ne.mpr hexact]
  rfl

/-- Claim C6, witness: the prefixed variant name with a placeholder value
becomes the rendered delta, not an -Xmx string. -/
theorem claim6_exact_reduce_witness :
    pyContains "x.mapreduce.reduce.memory.mb" "mapreduce.reduce.memory.mb" = true ∧
      generalNewValue "x.mapreduce.reduce.memory.mb" "$\x7bv\x7d" 1024 = "1024" :=
  ⟨by rfl, (claim6_exact_reduce "x.mapreduce.reduce.memory.mb" "$\x7bv\x7d" 1024 (by rfl)
    (by decide) (by rfl)).trans (by rfl)⟩

/-- Claim C8: a property element whose name child or value child is absent
is skipped without error and without contributing to the count; the walk
still descends into its subtree and continues. -/
theorem claim8_skip (ns : String) (d : Int) (m : Bool) (tag : String)
    (attrs : List (String × String)) (tx : Option String) (children : List XmlNode)
    (htag : tag = ns ++ "property")
    (h : findTag (ns ++ "name") children = none ∨ findTag (ns ++ "value") children = none) :
    processNode ns d m (XmlNode.elem tag attrs tx children) =
      Except.map (fun p => (XmlNode.elem tag attrs tx p.1, p.2))
        (processForest ns d m children) := by
  rw [processNode]
  have hsc : (if tag == ns ++ "property" then stepCompute ns d m children
      else Except.ok (none, 0)) = Except.ok (none, 0) := by
    by_cases htag2 : (tag == ns ++ "property") = true
    · rw [if_pos htag2]
      exact stepCompute_missing h
    · rw [if_neg htag2]
  rw [hsc]
  rcases hch : processForest ns d m children with e | ⟨cs2, c2⟩
  · rfl
  · show Except.ok (XmlNode.elem tag attrs tx cs2, 0 + c2) =
      Except.ok (XmlNode.elem tag attrs tx cs2, c2)
    rw [Nat.zero_add]

/-- Claim C8, witness: a property with no value child passes through
unchanged with count zero. -/
theorem claim8_skip_witness :
    processNode "" 1024 false (XmlNode.elem "property" [] none
      [XmlNode.elem "name" [] (some "mapreduce.map.memory.mb") []]) =
      Except.ok (XmlNode.elem "property" [] none
        [XmlNode.elem "name" [] (some "mapreduce.map.memory.mb") []], 0) :=
  (claim8_skip "" 1024 false "property" [] none
    [XmlNode.elem "name" [] (some "mapreduce.map.memory.mb") []]
    (by rfl) (Or.inr (by rfl))).trans (by rfl)

/-- Claim C9: increase_general_value matches the -Xmx pattern anchored only
at the start, so a recognized head followed by arbitrary trailing
characters is rewritten to the bare incremented -Xmx string, silently
discarding the trailer. -/
theorem claim9_trailer (ds : List Char) (c : Char) (t : List Char) (d : Int) (j r : Bool)
    (h1 : ds ≠ []) (h2 : ∀ x ∈ ds, isAsciiDigit x = true) (hc : c = 'm' ∨ c = 'M') :
    increase_general_value ⟨'-' :: 'X' :: 'm' :: 'x' :: (ds ++ c :: t)⟩ d j r =
      "-Xmx" ++ intToDecimal ((listToNat ds : Int) + d) ++ String.singleton c :=
  increase_general_value_xmx c t d j r h1 h2 hc

/-- Claim C9, witness: a JVM option string with a trailer loses the trailer. -/
theorem claim9_trailer_witness :
    increase_general_value "-Xmx1024m -XX:+UseG1GC" 1024 false false = "-Xmx2048m" :=
  (claim9_trailer ['1', '0', '2', '4'] 'm' " -XX:+UseG1GC".data 1024 false false
    (by decide) (by decide) (Or.inl rfl)).trans (by rfl)

/-- Claim C10: increase_general_value returns the same result whether its
is_java_opt parameter is true or false, for every value, delta and
is_reduce_memory flag; the parameter is accepted but has no effect. -/
theorem claim10_java_opt_noninterference (value : String) (d : Int) (r : Bool) :
    increase_general_value value d true r = increase_general_value value d false r := rfl

/-- Claim C7: with a strictly positive delta, applying a transformer twice
to a value of recognized digit-only or -Xmx form strictly differs from
applying it once — for the yarn transformer on its two recognized forms,
and for the general transformer on its digit form and its start-anchored
-Xmx form. -/
theorem claim7_no_idempotence (d : Int) (hd : 0 < d) :
    (∀ l : List Char, l ≠ [] → (∀ c ∈ l, isAsciiDigit c = true) →
      ∀ t1, increase_yarn_value ⟨l⟩ d = Except.ok t1 →
        increase_yarn_value t1 d ≠ Except.ok t1) ∧
    (∀ ds : List Char, ds ≠ [] → (∀ c ∈ ds, isAsciiDigit c = true) →
      ∀ t1, increase_yarn_value ⟨'-' :: 'X' :: 'm' :: 'x' :: (ds ++ ['M'])⟩ d =
          Except.ok t1 →
        increase_yarn_value t1 d ≠ Except.ok t1) ∧
    (∀ (l : List Char) (j r : Bool), l ≠ [] → (∀ c ∈ l, isAsciiDigit c = true) →
      increase_general_value (increase_general_value ⟨l⟩ d j r) d j r ≠
        increase_general_value ⟨l⟩ d j r) ∧
    (∀ (ds : List Char) (c : Char) (t : List Char) (j r : Bool), ds ≠ [] →
      (∀ x ∈ ds, isAsciiDigit x = true) → (c = 'm' ∨ c = 'M') →
      increase_general_value
          (increase_general_value ⟨'-' :: 'X' :: 'm' :: 'x' :: (ds ++ c :: t)⟩ d j r)
          d j r ≠
        increase_general_value ⟨'-' :: 'X' :: 'm' :: 'x' :: (ds ++ c :: t)⟩ d j r) := by
  refine ⟨?_, ?_, ?_, ?_⟩
  · intro l hne hdig t1 h1
    rw [increase_yarn_value_digits d hne hdig] at h1
    have ht1 : t1 = intToDecimal ((listToNat l : Int) + d) := (Except.ok.inj h1).symm
    subst ht1
    have hipos : 0 < (listToNat l : Int) + d := by omega
    obtain ⟨hne2, hdig2⟩ := intToDecimal_pos_digits hipos
    intro h2
    have h3 := increase_yarn_value_digits (l := (intToDecimal ((listToNat l : Int) + d)).data)
      d hne2 hdig2
    have h4 : increase_yarn_value (intToDecimal ((listToNat l : Int) + d)) d =
        Except.ok (intToDecimal
          ((listToNat (intToDecimal ((listToNat l : Int) + d)).data : Int) + d)) := h3
    rw [h4] at h2
    rw [listToNat_intToDecimal (le_of_lt hipos)] at h2
    have h5 := Except.ok.inj h2
    have h6 := intToDecimal_inj_nonneg (by omega) (by omega) h5
    omega
  · intro ds hne hdig t1 h1
    rw [increase_yarn_value_xmx d hne hdig] at h1
    have ht1 : t1 = "-Xmx" ++ intToDecimal ((listToNat ds : Int) + d) ++ "M" :=
      (Except.ok.inj h1).symm
    subst ht1
    have hipos : 0 < (listToNat ds : Int) + d := by omega
    obtain ⟨hne2, hdig2⟩ := intToDecimal_pos_digits hipos
    have hdata : ("-Xmx" ++ intToDecimal ((listToNat ds : Int) + d) ++ "M") =
        ⟨'-' :: 'X' :: 'm' :: 'x' ::
          ((intToDecimal ((listToNat ds : Int) + d)).data ++ ['M'])⟩ := by
      apply string_eq_of_data
      rw [String.data_append, String.data_append]
      rfl
    intro h2
    have h3 := increase_yarn_value_xmx (s := (intToDecimal ((listToNat ds : Int) + d)).data)
      d hne2 hdig2
    rw [← hdata] at h3
    rw [h3] at h2
    rw [listToNat_intToDecimal (le_of_lt hipos)] at h2
    have h5 := Except.ok.inj h2
    have h6 := intToDecimal_inj_nonneg (by omega) (by omega) (wrap_inj "-Xmx" "M" h5)
    omega
  · intro l j r hne hdig
    rw [increase_general_value_digits d j r hne hdig]
    have hipos : 0 < (listToNat l : Int) + d := by omega
    obtain ⟨hne2, hdig2⟩ := intToDecimal_pos_digits hipos
    intro h2
    have h3 := increase_general_value_digits
      (l := (intToDecimal ((listToNat l : Int) + d)).data) d j r hne2 hdig2
    have h4 : increase_general_value (intToDecimal ((listToNat l : Int) + d)) d j r =
        intToDecimal
          ((listToNat (intToDecimal ((listToNat l : Int) + d)).data : Int) + d) := h3
    rw [h4, listToNat_intToDecimal (le_of_lt hipos)] at h2
    have h6 := intToDecimal_inj_nonneg (by omega) (by omega) h2
    omega
  · intro ds c t j r hne hdig hc
    rw [increase_general_value_xmx c t d j r hne hdig hc]
    have hipos : 0 < (listToNat ds : Int) + d := by omega
    obtain ⟨hne2, hdig2⟩ := intToDecimal_pos_digits hipos
    have hdata : ("-Xmx" ++ intToDecimal ((listToNat ds : Int) + d) ++ String.singleton c) =
        ⟨'-' :: 'X' :: 'm' :: 'x' ::
          ((intToDecimal ((listToNat ds : Int) + d)).data ++ c :: [])⟩ := by
      apply string_eq_of_data
      rw [String.data_append, String.data_append]
      rfl
    intro h2
    have h3 := increase_general_value_xmx
      (s := (intToDecimal ((listToNat ds : Int) + d)).data) c [] d j r hne2 hdig2 hc
    rw [← hdata] at h3
    rw [h3, listToNat_intToDecimal (le_of_lt hipos)] at h2
    have h6 := intToDecimal_inj_nonneg (by omega) (by omega)
      (wrap_inj "-Xmx" (String.singleton c) h2)
    omega

/-- Claim C7, witness: one application to 1024 gives 2048, and a second
application gives 3072, a different string. -/
theorem claim7_no_idempotence_witness :
    increase_general_value (increase_general_value "1024" 1024 false false) 1024 false false ≠
      increase_general_value "1024" 1024 false false :=
  (claim7_no_idempotence 1024 (by decide)).2.2.1 ['1', '0', '2', '4'] false false
    (by decide) (by decide)

/-- Claim C2, counterexample: a parseable document whose eligible yarn
property holds the value -XmxabcM makes process_xml raise ValueError, so no
MutationResult is returned for this parseable document. -/
theorem claim2_counterexample :
    process_xml (XmlNode.elem "configuration" [] none
      [XmlNode.elem "property" [] none
        [XmlNode.elem "name" [] (some "yarn.app.mapreduce.am.resource.mb") [],
         XmlNode.elem "value" [] (some "-XmxabcM") []]]) 1024 true =
      Except.error PyErr.valueError := by rfl

/-- Claim C2, amended: whenever process_xml returns a result, the count is
exactly the number of text positions changed between the input and output
documents, and the serialization decision equals the count being strictly
positive. -/
theorem claim2_count_spec (root : XmlNode) (d : Int) (m : Bool) (out : XmlNode)
    (c : Nat) (b : Bool) (h : process_xml root d m = Except.ok (out, c, b)) :
    c = diffN root out ∧ b = decide (0 < c) := by
  unfold process_xml at h
  rcases hnode : processNode (detectNs root.tag) d m root with e | ⟨r2, c2⟩ <;>
    rw [hnode] at h
  · exact Except.noConfusion h
  · have hp := Except.ok.inj h
    have hout : r2 = out := congrArg Prod.fst hp
    have hc : c2 = c := congrArg (fun p => p.snd.fst) hp
    have hb : decide (0 < c2) = b := congrArg (fun p => p.snd.snd) hp
    subst hout
    subst hc
    obtain ⟨_, hD, _⟩ := processNode_sound hnode
    exact ⟨hD, hb.symm⟩

/-- Claim C2, witness: a document with one eligible digit property mutates
with count one, which is exactly the number of changed texts, and the
serialization decision is true. -/
theorem claim2_count_spec_witness :
    (1 : Nat) = diffN
      (XmlNode.elem "configuration" [] none
        [XmlNode.elem "property" [] none
          [XmlNode.elem "name" [] (some "mapreduce.map.memory.mb") [],
           XmlNode.elem "value" [] (some "1024") []]])
      (XmlNode.elem "configuration" [] none
        [XmlNode.elem "property" [] none
          [XmlNode.elem "name" [] (some "mapreduce.map.memory.mb") [],
           XmlNode.elem "value" [] (some "2048") []]]) ∧
      true = decide (0 < (1 : Nat)) :=
  claim2_count_spec
    (XmlNode.elem "configuration" [] none
      [XmlNode.elem "property" [] none
        [XmlNode.elem "name" [] (some "mapreduce.map.memory.mb") [],
         XmlNode.elem "value" [] (some "1024") []]]) 1024 false
    (XmlNode.elem "configuration" [] none
      [XmlNode.elem "property" [] none
        [XmlNode.elem "name" [] (some "mapreduce.map.memory.mb") [],
         XmlNode.elem "value" [] (some "2048") []]]) 1 true (by rfl)

/-- Claim C4: whenever process_xml returns a document, that document agrees
with the input everywhere outside the value slots of mode-eligible
properties: masking those slots on both sides yields equal documents, so no
ineligible property value is ever modified. -/
theorem claim4_frame (root : XmlNode) (d : Int) (m : Bool) (out : XmlNode)
    (c : Nat) (b : Bool) (h : process_xml root d m = Except.ok (out, c, b)) :
    maskN (detectNs root.tag) m out = maskN (detectNs root.tag) m root := by
  unfold process_xml at h
  rcases hnode : processNode (detectNs root.tag) d m root with e | ⟨r2, c2⟩ <;>
    rw [hnode] at h
  · exact Except.noConfusion h
  · have hout : r2 = out := congrArg Prod.fst (Except.ok.inj h)
    subst hout
    exact (processNode_sound hnode).2.2

/-- Claim C4, witness: a yarn-mode run that rewrites the eligible property
leaves the masked documents equal, the ineligible digit property intact. -/
theorem claim4_frame_witness :
    maskN "" true
      (XmlNode.elem "configuration" [] none
        [XmlNode.elem "property" [] none
          [XmlNode.elem "name" [] (some "yarn.app.mapreduce.am.resource.mb") [],
           XmlNode.elem "value" [] (some "2048") []],
         XmlNode.elem "property" [] none
          [XmlNode.elem "name" [] (some "other.prop") [],
           XmlNode.elem "value" [] (some "999") []]]) =
    maskN "" true
      (XmlNode.elem "configuration" [] none
        [XmlNode.elem "property" [] none
          [XmlNode.elem "name" [] (some "yarn.app.mapreduce.am.resource.mb") [],
           XmlNode.elem "value" [] (some "1024") []],
         XmlNode.elem "property" [] none
          [XmlNode.elem "name" [] (some "other.prop") [],
           XmlNode.elem "value" [] (some "999") []]]) :=
  claim4_frame
    (XmlNode.elem "configuration" [] none
      [XmlNode.elem "property" [] none
        [XmlNode.elem "name" [] (some "yarn.app.mapreduce.am.resource.mb") [],
         XmlNode.elem "value" [] (some "1024") []],
       XmlNode.elem "property" [] none
        [XmlNode.elem "name" [] (some "other.prop") [],
         XmlNode.elem "value" [] (some "999") []]]) 1024 true
    (XmlNode.elem "configuration" [] none
      [XmlNode.elem "property" [] none
        [XmlNode.elem "name" [] (some "yarn.app.mapreduce.am.resource.mb") [],
         XmlNode.elem "value" [] (some "2048") []],
       XmlNode.elem "property" [] none
        [XmlNode.elem "name" [] (some "other.prop") [],
         XmlNode.elem "value" [] (some "999") []]]) 1 true (by rfl)

/-- Claim C5, counterexample: a document with zero eligible properties in
which one property has a present but textless name child makes process_xml
raise AttributeError instead of returning a zero count. -/
theorem claim5_counterexample :
    noEligibleDoc "" false (XmlNode.elem "configuration" [] none
      [XmlNode.elem "property" [] none
        [XmlNode.elem "name" [] none [],
         XmlNode.elem "value" [] (some "1024") []]]) = true ∧
    process_xml (XmlNode.elem "configuration" [] none
      [XmlNode.elem "property" [] none
        [XmlNode.elem "name" [] none [],
         XmlNode.elem "value" [] (some "1024") []]]) 1024 false =
      Except.error PyErr.attributeError :=
  ⟨by rfl, by rfl⟩

/-- Claim C5, amended: a document with zero mode-eligible properties all of
whose properties are text-wellformed — or more generally one on which every
property step is a silent no-op, in particular when no computed value
differs from the original — is handed back untouched by process_xml, with
count zero and with the serialization decision false. -/
theorem claim5_roundtrip (root : XmlNode) (d : Int) (m : Bool)
    (h : (noEligibleDoc (detectNs root.tag) m root = true ∧
        textsOK (detectNs root.tag) root = true) ∨
      stepsNoOp (detectNs root.tag) d m root = true) :
    process_xml root d m = Except.ok (root, 0, false) := by
  have hnoop : stepsNoOp (detectNs root.tag) d m root = true := by
    rcases h with ⟨h1, h2⟩ | h
    · unfold noEligibleDoc at h1
      unfold textsOK at h2
      unfold stepsNoOp
      have himp : ∀ cs : List XmlNode,
          (!nameEligHere (detectNs root.tag) m cs) = true →
          textsHere (detectNs root.tag) cs = true →
          decide (stepCompute (detectNs root.tag) d m cs = Except.ok (none, 0)) = true := by
        intro cs hp hq
        have hpf : nameEligHere (detectNs root.tag) m cs = false := by
          cases hx : nameEligHere (detectNs root.tag) m cs
          · rfl
          · rw [hx] at hp
            exact absurd hp (by simp)
        exact decide_eq_true (step_noop_of_inelig hpf hq)
      have hs := allPropsF_imp (detectNs root.tag) himp (sizeOf [root]) [root]
        (Nat.le_refl _) (by rw [allPropsF_singleton]; exact h1)
        (by rw [allPropsF_singleton]; exact h2)
      rw [allPropsF_singleton] at hs
      exact hs
    · exact h
  unfold stepsNoOp at hnoop
  unfold process_xml
  rw [processNode_noop hnoop]
  rfl

/-- Claim C5, witness: a document whose only property is ineligible comes
back verbatim with a zero count and no serialization. -/
theorem claim5_roundtrip_witness :
    process_xml (XmlNode.elem "configuration" [] none
      [XmlNode.elem "property" [] none
        [XmlNode.elem "name" [] (some "other.prop") [],
         XmlNode.elem "value" [] (some "1024") []]]) 1024 true =
      Except.ok (XmlNode.elem "configuration" [] none
        [XmlNode.elem "property" [] none
          [XmlNode.elem "name" [] (some "other.prop") [],
           XmlNode.elem "value" [] (some "1024") []]], 0, false) :=
  claim5_roundtrip (XmlNode.elem "configuration" [] none
    [XmlNode.elem "property" [] none
      [XmlNode.elem "name" [] (some "other.prop") [],
       XmlNode.elem "value" [] (some "1024") []]]) 1024 true
    (Or.inl ⟨by rfl, by rfl⟩)
